import Mathlib

/-!
Verification of the skip-list ordered map implemented in `src/data/skiplist.rs`.

The Rust implementation stores nodes behind `Rc<RefCell<...>>` pointers.  We
embed it shallowly with an arena: all nodes live in a list `nodes`, a node is
addressed by its index, and the head sentinel is the node at index 0 (created
by `SkipList::new`; `insert` only ever appends nodes).  A forward reference
`Option<Rc<RefCell<SkipListNode>>>` becomes an `Option Nat` holding the index
of the target node.  `Bytes` keys and values become `List Nat` (byte
sequences), compared lexicographically exactly as `Ord for Bytes` does.

The two loops of the source (`find_greater_or_eq` and
`calculate_random_height`) are embedded with explicit fuel; running out of
fuel models non-termination of the loop and is proven unreachable (for the
descent loop: on every invariant-satisfying state).  The `unwrap` on line 71
of the source is embedded as an explicit `unwrapPanic` outcome, and
`panic!("Same keys are not allowed here")` on line 89 as a `panicked` outcome
carrying the panic message.  The stream of `random::<usize>()` results used
by `calculate_random_height` is passed in explicitly as a function
`draws : Nat → Nat` giving the value of the i-th call.
-/

/-- `MAX_HEIGHT` constant from the source (line 8). -/
def MAX_HEIGHT : Nat := 12

/-- `BRANCH_FACTOR` constant from the source (line 9). -/
def BRANCH_FACTOR : Nat := 4

/-- Lexicographic byte comparison: `Ord::cmp` on Rust `Bytes` (byte slices).
Shorter strict prefixes compare as less. -/
def bytesCmp : List Nat → List Nat → Ordering
  | [], [] => Ordering.eq
  | [], _ :: _ => Ordering.lt
  | _ :: _, [] => Ordering.gt
  | a :: as', b :: bs' =>
      if a < b then Ordering.lt
      else if b < a then Ordering.gt
      else bytesCmp as' bs'

/-- Strict key order: `a` compares less than `b`. -/
def bLt (a b : List Nat) : Prop := bytesCmp a b = Ordering.lt

instance (a b : List Nat) : Decidable (bLt a b) := by
  unfold bLt; infer_instance

/-- `SkipListNode` (source lines 16-20): key, value, and the per-level forward
references.  Pointers are arena indices. -/
structure SkipListNode where
  key : List Nat
  value : List Nat
  next : List (Option Nat)
deriving DecidableEq

instance : Inhabited SkipListNode := ⟨⟨[], [], []⟩⟩

/-- `SkipListNode::new` (source lines 23-29): a fresh node carries
`MAX_HEIGHT` empty forward slots. -/
def SkipListNode.new (key value : List Nat) : SkipListNode :=
  { key := key, value := value, next := List.replicate MAX_HEIGHT none }

/-- `SkipList` (source lines 11-14): the head pointer becomes the convention
that the head sentinel is the arena node at index 0. -/
structure SkipList where
  nodes : List SkipListNode
  current_height : Nat
deriving DecidableEq

/-- `SkipList::new` (source lines 33-43). -/
def SkipList.new : SkipList :=
  { nodes := [{ key := [], value := [], next := List.replicate MAX_HEIGHT none }],
    current_height := 1 }

/-- The arena node at index `i` (out-of-range reads yield the default node;
the invariant keeps every access in range). -/
def nodeAt (nodes : List SkipListNode) (i : Nat) : SkipListNode :=
  nodes.getD i default

/-- Level-`L` forward reference of node `i` in an arena. -/
def nextOfL (nodes : List SkipListNode) (i L : Nat) : Option Nat :=
  ((nodeAt nodes i).next).getD L none

/-- Level-`L` forward reference of node `i` in a skip list. -/
def nextOf (s : SkipList) (i L : Nat) : Option Nat :=
  nextOfL s.nodes i L

/-- Key of node `i`. -/
def keyOf (s : SkipList) (i : Nat) : List Nat :=
  (nodeAt s.nodes i).key

/-- Value of node `i`. -/
def valueOf (s : SkipList) (i : Nat) : List Nat :=
  (nodeAt s.nodes i).value

/-- `SkipList::less_than_eq` (source lines 45-55): `true` iff the search key
is ≤ the key of the referenced node, where "none" counts as `true`. -/
def SkipList.less_than_eq (s : SkipList) (key : List Nat) (opt_node : Option Nat) : Bool :=
  match opt_node with
  | none => true
  | some i =>
      match bytesCmp key (keyOf s i) with
      | Ordering.gt => false
      | _ => true

/-- Failure outcomes of the embedded descent loop: the loop not terminating
(fuel exhaustion), or the `unwrap` on source line 71 hitting `None`. -/
inductive RunError where
  | nonTermination
  | unwrapPanic
deriving DecidableEq

/-- Loop body of `SkipList::find_greater_or_eq` (source lines 61-72), with
explicit fuel.  State: current level, current node index, and the
`prev_nodes_by_levels` vector. -/
def find_go (s : SkipList) (key : List Nat) :
    Nat → Nat → Nat → List Nat → Except RunError (Option Nat × List Nat)
  | 0, _, _, _ => Except.error RunError.nonTermination
  | fuel + 1, level, current, prevs =>
      if s.less_than_eq key (nextOf s current level) then
        if level = 0 then Except.ok (nextOf s current level, prevs.set level current)
        else find_go s key fuel (level - 1) current (prevs.set level current)
      else
        match nextOf s current level with
        | some j => find_go s key fuel level j prevs
        | none => Except.error RunError.unwrapPanic

/-- `SkipList::find_greater_or_eq` (source lines 57-73).  The fuel
`nodes.length + MAX_HEIGHT` is proven sufficient on every state satisfying
the structural invariant. -/
def SkipList.find_greater_or_eq (s : SkipList) (key : List Nat) :
    Except RunError (Option Nat × List Nat) :=
  find_go s key (s.nodes.length + MAX_HEIGHT) (s.current_height - 1) 0
    (List.replicate MAX_HEIGHT 0)

/-- Loop of `SkipList::calculate_random_height` (source lines 77-82) with
explicit fuel; `i` indexes the next `random::<usize>()` draw. -/
def crhGo (draws : Nat → Nat) : Nat → Nat → Nat → Nat
  | 0, _, height => height
  | fuel + 1, i, height =>
      if MAX_HEIGHT ≤ height ∨ draws i % BRANCH_FACTOR ≠ 0 then height
      else crhGo draws fuel (i + 1) (height + 1)

/-- `SkipList::calculate_random_height` (source lines 75-84); fuel
`MAX_HEIGHT` is proven sufficient. -/
def calculate_random_height (draws : Nat → Nat) : Nat :=
  crhGo draws MAX_HEIGHT 0 1

/-- Write `v` into forward slot `L` of node `i`. -/
def setNext (nodes : List SkipListNode) (i L : Nat) (v : Option Nat) : List SkipListNode :=
  nodes.set i { nodeAt nodes i with next := (nodeAt nodes i).next.set L v }

/-- One iteration of the splice loop (source lines 103-107) at level `L`:
read the predecessor's forward slot, copy it into the new node, then point
the predecessor at the new node. -/
def spliceOne (nodes : List SkipListNode) (p nIdx L : Nat) : List SkipListNode :=
  setNext (setNext nodes nIdx L (nextOfL nodes p L)) p L (some nIdx)

/-- The splice loop (source lines 103-107): levels `0, 1, ..., h-1` processed
in increasing order. -/
def spliceAll (nodes : List SkipListNode) (prevs : List Nat) (nIdx : Nat) : Nat → List SkipListNode
  | 0 => nodes
  | h + 1 => spliceOne (spliceAll nodes prevs nIdx h) (prevs.getD h 0) nIdx h

/-- The level-expansion write (source lines 94-97):
`prev_nodes_by_levels.iter_mut().skip(lo).take(count)` entries are set to the
head (index 0). -/
def expandPrevs : List Nat → Nat → Nat → List Nat
  | [], _, _ => []
  | x :: xs, 0, 0 => x :: xs
  | _ :: xs, 0, c + 1 => 0 :: expandPrevs xs 0 c
  | x :: xs, lo + 1, c => x :: expandPrevs xs lo c

/-- The duplicate-key test on source line 88:
`found_next.is_some() && key.cmp(&found.borrow().key) == Ordering::Equal`. -/
def dupCheck (s : SkipList) (key : List Nat) (found : Option Nat) : Bool :=
  match found with
  | some j => decide (bytesCmp key (keyOf s j) = Ordering.eq)
  | none => false

/-- Outcome of `SkipList::insert`: normal return, the `panic!` on source line
89 (process-terminating, carrying the panic message), or a descent-loop
failure. -/
inductive InsertResult where
  | ok (s : SkipList)
  | panicked (msg : String)
  | stuck (e : RunError)
deriving DecidableEq

/-- `SkipList::insert` (source lines 86-108). -/
def SkipList.insert (s : SkipList) (key value : List Nat) (draws : Nat → Nat) : InsertResult :=
  match s.find_greater_or_eq key with
  | Except.error e => InsertResult.stuck e
  | Except.ok (found_next, prevs) =>
      if dupCheck s key found_next then
        InsertResult.panicked "Same keys are not allowed here"
      else
        let height := calculate_random_height draws
        let prevs2 :=
          if s.current_height < height then expandPrevs prevs s.current_height height
          else prevs
        let ch2 := if s.current_height < height then height else s.current_height
        let n := s.nodes.length
        InsertResult.ok
          { nodes := spliceAll (s.nodes ++ [SkipListNode.new key value]) prevs2 n height,
            current_height := ch2 }

/-- `SkipList::get` (source lines 115-124). -/
def SkipList.get (s : SkipList) (key : List Nat) : Except RunError (Option (List Nat)) :=
  match s.find_greater_or_eq key with
  | Except.error e => Except.error e
  | Except.ok (found_next, _) =>
      match found_next with
      | some j =>
          if bytesCmp key (keyOf s j) = Ordering.eq then Except.ok (some (valueOf s j))
          else Except.ok none
      | none => Except.ok none

/-- `SkipList::contain` (source lines 110-113). -/
def SkipList.contain (s : SkipList) (key : List Nat) : Except RunError Bool :=
  (s.get key).map Option.isSome

/-- The public operations of the map, as first-class descriptions. -/
inductive Op where
  | get (k : List Nat)
  | contain (k : List Nat)
  | insert (k v : List Nat) (draws : Nat → Nat)

/-- Observable result of one operation. -/
inductive OpResult where
  | value (v : Option (List Nat))
  | bool (b : Bool)
  | unit
  | panicked (msg : String)
  | stuck (e : RunError)
deriving DecidableEq

/-- Run one public operation against a map state, returning the observable
result and the state afterwards.  `get`/`contain` take `&self` in the source
and cannot mutate; a panicking `insert` aborts before any mutation (the
`panic!` on line 89 precedes every write), so the state is the original. -/
def runOp (s : SkipList) : Op → OpResult × SkipList
  | Op.get k =>
      (match s.get k with
       | Except.ok v => OpResult.value v
       | Except.error e => OpResult.stuck e, s)
  | Op.contain k =>
      (match s.contain k with
       | Except.ok b => OpResult.bool b
       | Except.error e => OpResult.stuck e, s)
  | Op.insert k v draws =>
      match s.insert k v draws with
      | InsertResult.ok s' => (OpResult.unit, s')
      | InsertResult.panicked m => (OpResult.panicked m, s)
      | InsertResult.stuck e => (OpResult.stuck e, s)

/-- Whether an operation is one of the two read-only operations. -/
def Op.isRead : Op → Bool
  | Op.get _ => true
  | Op.contain _ => true
  | Op.insert _ _ _ => false

/-- Run a sequence of operations, returning the final state. -/
def runOps (s : SkipList) (ops : List Op) : SkipList :=
  ops.foldl (fun st op => (runOp st op).2) s

/-- The chain of node indices reached from forward reference `start` by
following level-`L` links, cut off at `fuel` steps. -/
def chainFrom (s : SkipList) (L : Nat) : Nat → Option Nat → List Nat
  | _, none => []
  | 0, some _ => []
  | fuel + 1, some i => i :: chainFrom s L fuel (nextOf s i L)

/-- The level-`L` chain starting at the head sentinel.  Fuel `nodes.length`
is enough to reach the end of the chain on every invariant-satisfying
state. -/
def chain (s : SkipList) (L : Nat) : List Nat :=
  chainFrom s L s.nodes.length (nextOf s 0 L)

/-- Modelled from the spec (§4.4, §6, §7): the spec requires
`insert(key, value) -> Result<(), DuplicateKeyError>`, i.e. a recoverable
result value with a dedicated `DuplicateKeyError` variant instead of the
`panic!` the source performs; this type is the comparison point for that
refinement claim. -/
inductive SpecInsertResult where
  | ok (s : SkipList)
  | duplicateKeyError
deriving DecidableEq

/-! ### Lemmas about lexicographic byte comparison -/

theorem bytesCmp_self (a : List Nat) : bytesCmp a a = Ordering.eq := by
  induction a with
  | nil => rfl
  | cons x xs ih => simp [bytesCmp, ih]

theorem bytesCmp_eq_iff {a b : List Nat} : bytesCmp a b = Ordering.eq ↔ a = b := by
  constructor
  · intro h
    induction a generalizing b with
    | nil => cases b with
      | nil => rfl
      | cons y bs => simp [bytesCmp] at h
    | cons x as ih =>
      cases b with
      | nil => simp [bytesCmp] at h
      | cons y bs =>
        by_cases hxy : x < y
        · simp [bytesCmp, hxy] at h
        · by_cases hyx : y < x
          · simp [bytesCmp, hxy, hyx] at h
          · have hx : x = y := Nat.le_antisymm (Nat.le_of_not_lt hyx) (Nat.le_of_not_lt hxy)
            simp [bytesCmp, hxy, hyx] at h
            rw [hx, ih h]
  · intro h; rw [h]; exact bytesCmp_self b

theorem bytesCmp_swap (a b : List Nat) : bytesCmp b a = (bytesCmp a b).swap := by
  induction a generalizing b with
  | nil => cases b <;> simp [bytesCmp, Ordering.swap]
  | cons x as ih =>
    cases b with
    | nil => simp [bytesCmp, Ordering.swap]
    | cons y bs =>
      by_cases hxy : x < y
      · have hyx : ¬ y < x := by omega
        simp [bytesCmp, hxy, hyx, Ordering.swap]
      · by_cases hyx : y < x
        · simp [bytesCmp, hxy, hyx, Ordering.swap]
        · simp [bytesCmp, hxy, hyx, ih]

theorem bLt_irrefl (a : List Nat) : ¬ bLt a a := by
  simp [bLt, bytesCmp_self]

theorem bLt_asymm {a b : List Nat} : bLt a b → bLt b a → False := by
  intro h1 h2
  unfold bLt at h1 h2
  rw [bytesCmp_swap, h1] at h2
  simp [Ordering.swap] at h2

theorem bLt_trans : ∀ {a b c : List Nat}, bLt a b → bLt b c → bLt a c := by
  intro a
  induction a with
  | nil =>
    intro b c hab hbc
    cases b with
    | nil => exact absurd hab (bLt_irrefl [])
    | cons y bs =>
      cases c with
      | nil => simp [bLt, bytesCmp] at hbc
      | cons z cs => simp [bLt, bytesCmp]
  | cons x as ih =>
    intro b c hab hbc
    cases b with
    | nil => simp [bLt, bytesCmp] at hab
    | cons y bs =>
      cases c with
      | nil => simp [bLt, bytesCmp] at hbc
      | cons z cs =>
        unfold bLt bytesCmp at hab hbc ⊢
        by_cases hxy : x < y
        · by_cases hyz : y < z
          · simp [Nat.lt_trans hxy hyz]
          · by_cases hzy : z < y
            · simp [hyz, hzy] at hbc
            · have : x < z := by omega
              simp [this]
        · by_cases hyx : y < x
          · simp [hxy, hyx] at hab
          · by_cases hyz : y < z
            · have : x < z := by omega
              simp [this]
            · by_cases hzy : z < y
              · simp [hyz, hzy] at hbc
              · have hxz : ¬ x < z := by omega
                have hzx : ¬ z < x := by omega
                simp [hxy, hyx] at hab
                simp [hyz, hzy] at hbc
                simp [hxz, hzx]
                exact ih hab hbc

theorem bytesCmp_gt_iff {a b : List Nat} : bytesCmp a b = Ordering.gt ↔ bLt b a := by
  unfold bLt
  rw [bytesCmp_swap a b]
  cases h : bytesCmp a b <;> simp [h, Ordering.swap]

theorem bLt_of_not_gt_of_ne {a b : List Nat}
    (h1 : bytesCmp a b ≠ Ordering.gt) (h2 : bytesCmp a b ≠ Ordering.eq) :
    bLt a b := by
  unfold bLt
  cases h : bytesCmp a b
  · rfl
  · exact absurd h h2
  · exact absurd h h1

/-- `less_than_eq` is `true` exactly when the reference is empty or the
referenced key is not below the search key. -/
theorem less_than_eq_some_iff (s : SkipList) (key : List Nat) (j : Nat) :
    s.less_than_eq key (some j) = true ↔ ¬ bLt (keyOf s j) key := by
  unfold SkipList.less_than_eq
  rw [← bytesCmp_gt_iff]
  cases h : bytesCmp key (keyOf s j) <;> simp [h]

theorem less_than_eq_none (s : SkipList) (key : List Nat) :
    s.less_than_eq key none = true := rfl

/-! ### Chains of forward references -/

/-- `NodeChain s L i l`: starting from node `i` and following level-`L` forward
references, exactly the nodes in `l` are visited before the chain ends. -/
inductive NodeChain (s : SkipList) (L : Nat) : Nat → List Nat → Prop
  | nil {i : Nat} : nextOf s i L = none → NodeChain s L i []
  | cons {i j : Nat} {rest : List Nat} :
      nextOf s i L = some j → NodeChain s L j rest → NodeChain s L i (j :: rest)

theorem nodeChain_unique {s : SkipList} {L a : Nat} {l₁ l₂ : List Nat}
    (h₁ : NodeChain s L a l₁) (h₂ : NodeChain s L a l₂) : l₁ = l₂ := by
  induction h₁ generalizing l₂ with
  | nil hn =>
    cases h₂ with
    | nil _ => rfl
    | cons hs _ => rw [hn] at hs; exact absurd hs (by simp)
  | cons hs _ ih =>
    cases h₂ with
    | nil hn => rw [hn] at hs; exact absurd hs (by simp)
    | cons hs' hrest' =>
      rw [hs] at hs'
      injection hs' with hj
      subst hj
      rw [ih hrest']

theorem nodeChain_next_mem {s : SkipList} {L a j : Nat} {l : List Nat}
    (h : NodeChain s L a l) (hn : nextOf s a L = some j) : j ∈ l := by
  cases h with
  | nil he => rw [he] at hn; exact absurd hn (by simp)
  | cons hs _ => rw [hs] at hn; injection hn with hj; subst hj; exact List.mem_cons_self _ _

theorem nodeChain_mem_next {s : SkipList} {L a c j : Nat} {l : List Nat}
    (h : NodeChain s L a l) (hc : c ∈ l) (hn : nextOf s c L = some j) : j ∈ l := by
  induction h with
  | nil _ => exact absurd hc (List.not_mem_nil c)
  | cons hs hrest ih =>
    rcases List.mem_cons.mp hc with hceq | hcrest
    · subst hceq
      exact List.mem_cons_of_mem _ (nodeChain_next_mem hrest hn)
    · exact List.mem_cons_of_mem _ (ih hcrest)

theorem nodeChain_suffix {s : SkipList} {L a c : Nat} {l : List Nat}
    (h : NodeChain s L a l) (hc : c ∈ l) :
    ∃ pre post, l = pre ++ c :: post ∧ NodeChain s L c post := by
  induction h with
  | nil _ => exact absurd hc (List.not_mem_nil c)
  | cons hs hrest ih =>
    rcases List.mem_cons.mp hc with hceq | hcrest
    · subst hceq
      exact ⟨[], _, rfl, hrest⟩
    · obtain ⟨pre, post, heq, hch⟩ := ih hcrest
      exact ⟨_ :: pre, post, by rw [heq]; rfl, hch⟩

theorem nodeChain_congr {s s' : SkipList} {L a : Nat} {l : List Nat}
    (h : NodeChain s L a l) (ha : nextOf s' a L = nextOf s a L)
    (hl : ∀ i ∈ l, nextOf s' i L = nextOf s i L) : NodeChain s' L a l := by
  induction h with
  | nil hn => exact NodeChain.nil (by rw [ha, hn])
  | cons hs hrest ih =>
    refine NodeChain.cons (by rw [ha, hs]) (ih ?_ ?_)
    · exact hl _ (List.mem_cons_self _ _)
    · intro i hi; exact hl i (List.mem_cons_of_mem _ hi)

theorem chainFrom_of_nodeChain {s : SkipList} {L a : Nat} {l : List Nat}
    (h : NodeChain s L a l) : ∀ fuel, l.length ≤ fuel →
    chainFrom s L fuel (nextOf s a L) = l := by
  induction h with
  | nil hn => intro fuel _; rw [hn]; cases fuel <;> rfl
  | cons hs hrest ih =>
    intro fuel hlen
    rw [hs]
    cases fuel with
    | zero => simp at hlen
    | succ f =>
      simp only [chainFrom, List.cons.injEq, true_and]
      exact ih f (by simpa using hlen)

/-! ### Height sampling -/

theorem crhGo_bounds (draws : Nat → Nat) :
    ∀ fuel i h, 1 ≤ h → h ≤ MAX_HEIGHT →
    1 ≤ crhGo draws fuel i h ∧ crhGo draws fuel i h ≤ MAX_HEIGHT := by
  intro fuel
  induction fuel with
  | zero => intro i h h1 h2; exact ⟨h1, h2⟩
  | succ f ih =>
    intro i h h1 h2
    by_cases hc : MAX_HEIGHT ≤ h ∨ draws i % BRANCH_FACTOR ≠ 0
    · simpa [crhGo, hc] using ⟨h1, h2⟩
    · have hlt : h < MAX_HEIGHT := by
        rcases Classical.em (MAX_HEIGHT ≤ h) with hx | hx
        · exact absurd (Or.inl hx) hc
        · omega
      simpa [crhGo, hc] using ih (i + 1) (h + 1) (by omega) (by omega)

theorem calculate_random_height_bounds (draws : Nat → Nat) :
    1 ≤ calculate_random_height draws ∧ calculate_random_height draws ≤ MAX_HEIGHT :=
  crhGo_bounds draws MAX_HEIGHT 0 1 (by omega) (by norm_num [MAX_HEIGHT])

theorem crhGo_fuel (draws : Nat → Nat) :
    ∀ f₁ f₂ i h, MAX_HEIGHT - h ≤ f₁ → MAX_HEIGHT - h ≤ f₂ →
    crhGo draws f₁ i h = crhGo draws f₂ i h := by
  intro f₁
  induction f₁ with
  | zero =>
    intro f₂ i h h1 h2
    have hh : MAX_HEIGHT ≤ h := by omega
    cases f₂ with
    | zero => rfl
    | succ f => simp [crhGo, hh]
  | succ f ih =>
    intro f₂ i h h1 h2
    by_cases hc : MAX_HEIGHT ≤ h ∨ draws i % BRANCH_FACTOR ≠ 0
    · cases f₂ with
      | zero =>
        have hh : MAX_HEIGHT ≤ h := by
          rcases hc with hx | hx
          · exact hx
          · omega
        simp [crhGo, hc]
      | succ f' => simp [crhGo, hc]
    · have hlt : h < MAX_HEIGHT := by
        rcases Classical.em (MAX_HEIGHT ≤ h) with hx | hx
        · exact absurd (Or.inl hx) hc
        · omega
      cases f₂ with
      | zero => omega
      | succ f' =>
        simp only [crhGo, if_neg hc]
        exact ih f' (i + 1) (h + 1) (by omega) (by omega)

/-- A list that is pairwise-related by an asymmetric relation and whose
elements all occur in a second pairwise-related list is a sublist of it. -/
theorem sorted_subset_sublist {α : Type} {R : α → α → Prop}
    (hasym : ∀ a b, R a b → R b a → False) :
    ∀ (l₂ l₁ : List α), l₁.Pairwise R → l₂.Pairwise R →
    (∀ x ∈ l₁, x ∈ l₂) → l₁.Sublist l₂ := by
  intro l₂
  induction l₂ with
  | nil =>
    intro l₁ _ _ hsub
    cases l₁ with
    | nil => exact List.Sublist.refl []
    | cons a l₁' => exact absurd (hsub a (List.mem_cons_self _ _)) (List.not_mem_nil a)
  | cons b l₂' ih =>
    intro l₁ h₁ h₂ hsub
    cases l₁ with
    | nil => exact List.nil_sublist _
    | cons a l₁' =>
      obtain ⟨hrel₁, htail₁⟩ := List.pairwise_cons.mp h₁
      obtain ⟨hrel₂, htail₂⟩ := List.pairwise_cons.mp h₂
      by_cases hab : a = b
      · subst hab
        refine List.Sublist.cons₂ a (ih l₁' htail₁ htail₂ ?_)
        intro x hx
        rcases List.mem_cons.mp (hsub x (List.mem_cons_of_mem _ hx)) with hxa | hx2
        · subst hxa; exact absurd (hrel₁ x hx) (fun h => hasym x x h h)
        · exact hx2
      · have ha2 : a ∈ l₂' := by
          rcases List.mem_cons.mp (hsub a (List.mem_cons_self _ _)) with h | h
          · exact absurd h hab
          · exact h
        refine List.Sublist.cons b (ih (a :: l₁') h₁ htail₂ ?_)
        intro x hx
        rcases List.mem_cons.mp (hsub x hx) with hxb | hx2
        · subst hxb
          rcases List.mem_cons.mp hx with hxa | hxl
          · exact absurd hxa.symm hab
          · exact absurd (hrel₂ a ha2) (fun h => hasym _ _ (hrel₁ _ hxl) h)
        · exact hx2

/-- C10: in the descent loop, whenever the advance test fails the next node
is present, so the `unwrap` on source line 71 never sees `None`: for every
state (reachable or not), every key and every loop configuration, the loop
never produces the missing-node failure. -/
theorem find_go_never_unwrap_panics :
    ∀ (s : SkipList) (key : List Nat) (fuel level cur : Nat) (prevs : List Nat),
    find_go s key fuel level cur prevs ≠ Except.error RunError.unwrapPanic := by
  intro s key fuel
  induction fuel with
  | zero => intro level cur prevs; simp [find_go]
  | succ f ih =>
    intro level cur prevs
    by_cases hlt : s.less_than_eq key (nextOf s cur level) = true
    · by_cases hl : level = 0
      · subst hl; simp [find_go, hlt]
      · simp only [find_go, hlt, if_true, if_neg hl]
        exact ih _ _ _
    · have hlt' : s.less_than_eq key (nextOf s cur level) = false := by
        simpa using hlt
      cases hn : nextOf s cur level with
      | none =>
        rw [hn] at hlt'
        exact absurd (less_than_eq_none s key) (by simp [hlt'])
      | some j =>
        rw [hn] at hlt'
        simpa [find_go, hn, hlt'] using ih level j prevs

/-- C6: membership is exactly presence of the lookup result:
`contain` returns `true` precisely when `get` returns a value. -/
theorem contain_iff_get_isSome :
    ∀ (s : SkipList) (k : List Nat),
    (s.contain k = Except.ok true ↔ ∃ v, s.get k = Except.ok (some v)) := by
  intro s k
  unfold SkipList.contain
  cases h : s.get k with
  | error e => simp [Except.map]
  | ok o => cases o <;> simp [Except.map]

/-- C7: `get` and `contain` have no side effects: the state after running
either operation is the original state, hence `current_height`, every
forward reference (the head sentinel's included) and every node's key and
value are unchanged. -/
theorem get_contain_no_side_effects :
    ∀ (s : SkipList) (k : List Nat),
    (runOp s (Op.get k)).2 = s ∧ (runOp s (Op.contain k)).2 = s ∧
    (runOp s (Op.get k)).2.current_height = s.current_height ∧
    (∀ i L, nextOf (runOp s (Op.get k)).2 i L = nextOf s i L) ∧
    (∀ i, keyOf (runOp s (Op.get k)).2 i = keyOf s i ∧
        valueOf (runOp s (Op.get k)).2 i = valueOf s i) ∧
    (∀ i L, nextOf (runOp s (Op.contain k)).2 i L = nextOf s i L) := by
  intro s k
  exact ⟨rfl, rfl, rfl, fun _ _ => rfl, fun _ => ⟨rfl, rfl⟩, fun _ _ => rfl⟩

/-- C1 (amended): inserting a key that is already present (i.e. on which
`get` currently succeeds) makes `insert` abort with the
`panic!("Same keys are not allowed here")` of source line 89 — a
process-terminating fault rather than a recoverable result — and the map
state is unchanged. -/
theorem insert_duplicate_panics (s : SkipList) (k v w : List Nat) (d : Nat → Nat)
    (h : s.get k = Except.ok (some w)) :
    s.insert k v d = InsertResult.panicked "Same keys are not allowed here" ∧
    runOp s (Op.insert k v d) = (OpResult.panicked "Same keys are not allowed here", s) := by
  unfold SkipList.get at h
  cases hf : s.find_greater_or_eq k with
  | error e => rw [hf] at h; simp at h
  | ok r =>
    obtain ⟨found, prevs⟩ := r
    rw [hf] at h
    cases found with
    | none => simp at h
    | some j =>
      by_cases hc : bytesCmp k (keyOf s j) = Ordering.eq
      · have hins : s.insert k v d = InsertResult.panicked "Same keys are not allowed here" := by
          unfold SkipList.insert
          rw [hf]
          simp [dupCheck, hc]
        refine ⟨hins, ?_⟩
        simp only [runOp, hins]
      · simp [hc] at h

/-- Witness for the amended C1 theorem at a concrete input. -/
theorem insert_duplicate_panics_witness :
    (runOp SkipList.new (Op.insert [97] [49] (fun _ => 1))).2.get [97]
      = Except.ok (some [49]) ∧
    (runOp SkipList.new (Op.insert [97] [49] (fun _ => 1))).2.insert [97] [50] (fun _ => 1)
      = InsertResult.panicked "Same keys are not allowed here" := by
  refine ⟨rfl, ?_⟩
  exact (insert_duplicate_panics ((runOp SkipList.new (Op.insert [97] [49] (fun _ => 1))).2)
    [97] [50] [49] (fun _ => 1) rfl).1

/-- C1 counterexample: at a concrete state holding key `[97]`, re-inserting
`[97]` does not surface a recoverable result value — the observable outcome
is the process-terminating panic. -/
theorem insert_duplicate_not_recoverable :
    (runOp SkipList.new (Op.insert [97] [49] (fun _ => 1))).2.get [97]
      = Except.ok (some [49]) ∧
    (runOp (runOp SkipList.new (Op.insert [97] [49] (fun _ => 1))).2
        (Op.insert [97] [50] (fun _ => 1))).1
      = OpResult.panicked "Same keys are not allowed here" :=
  ⟨rfl, rfl⟩

/-! ### The structural invariant -/

/-- Structural invariant of a skip list state: the arena is non-empty (the
head sentinel is node 0), every node carries `MAX_HEIGHT` forward slots,
`current_height` is within bounds, every level's chain from the head is a
finite list of in-range non-head indices with strictly ascending keys, the
base-level chain visits every non-head node, each level's chain is contained
in the one below, keys are distinct across nodes, and levels at or above
`current_height` are empty. -/
structure SLInv (s : SkipList) : Prop where
  nodes_pos : 1 ≤ s.nodes.length
  next_len : ∀ i, i < s.nodes.length → (nodeAt s.nodes i).next.length = MAX_HEIGHT
  ch_lb : 1 ≤ s.current_height
  ch_ub : s.current_height ≤ MAX_HEIGHT
  chains : ∀ L, ∃ l, NodeChain s L 0 l
  sorted : ∀ L l, NodeChain s L 0 l →
    l.Pairwise (fun i j => bLt (keyOf s i) (keyOf s j))
  bounds : ∀ L l, NodeChain s L 0 l → ∀ i ∈ l, 1 ≤ i ∧ i < s.nodes.length
  complete : ∀ l, NodeChain s 0 0 l → ∀ i, 1 ≤ i → i < s.nodes.length → i ∈ l
  nested : ∀ L l' l, NodeChain s (L + 1) 0 l' → NodeChain s L 0 l → ∀ i ∈ l', i ∈ l
  keys_inj : ∀ i j, 1 ≤ i → i < s.nodes.length → 1 ≤ j → j < s.nodes.length →
    keyOf s i = keyOf s j → i = j
  high_empty : ∀ L, s.current_height ≤ L → nextOf s 0 L = none

theorem nodeChain_nodup {s : SkipList} (hInv : SLInv s) {L : Nat} {l : List Nat}
    (h : NodeChain s L 0 l) : l.Nodup := by
  refine (hInv.sorted L l h).imp ?_
  intro i j hij heq
  subst heq
  exact bLt_irrefl _ hij

theorem nodeChain_length_le {s : SkipList} (hInv : SLInv s) {L : Nat} {l : List Nat}
    (h : NodeChain s L 0 l) : l.length ≤ s.nodes.length := by
  have hnd : l.Nodup := nodeChain_nodup hInv h
  have hsub : l.toFinset ⊆ Finset.Ico 1 s.nodes.length := by
    intro i hi
    rw [List.mem_toFinset] at hi
    obtain ⟨h1, h2⟩ := hInv.bounds L l h i hi
    exact Finset.mem_Ico.mpr ⟨h1, h2⟩
  calc l.length = l.toFinset.card := (List.toFinset_card_of_nodup hnd).symm
    _ ≤ (Finset.Ico 1 s.nodes.length).card := Finset.card_le_card hsub
    _ ≤ s.nodes.length := by rw [Nat.card_Ico]; omega

/-- On an invariant-satisfying state, the fueled `chain` function computes
exactly the chain list. -/
theorem chain_eq_of_nodeChain {s : SkipList} (hInv : SLInv s) {L : Nat} {l : List Nat}
    (h : NodeChain s L 0 l) : chain s L = l :=
  chainFrom_of_nodeChain h s.nodes.length (nodeChain_length_le hInv h)

/-! ### Termination measure for the descent loop -/

/-- Number of real nodes strictly after `cur` in key order (every real node,
when `cur` is the head sentinel). -/
def countAbove (s : SkipList) (cur : Nat) : Nat :=
  ((Finset.range s.nodes.length).filter
    (fun i => 1 ≤ i ∧ (cur = 0 ∨ bLt (keyOf s cur) (keyOf s i)))).card

theorem countAbove_le (s : SkipList) (cur : Nat) : countAbove s cur ≤ s.nodes.length := by
  calc countAbove s cur ≤ (Finset.range s.nodes.length).card := Finset.card_filter_le _ _
    _ = s.nodes.length := Finset.card_range _

/-- Advancing to a real node `j` whose key lies above `cur`'s strictly
decreases the measure. -/
theorem countAbove_advance {s : SkipList} {cur j : Nat}
    (hj1 : 1 ≤ j) (hjn : j < s.nodes.length)
    (hkey : cur = 0 ∨ bLt (keyOf s cur) (keyOf s j)) :
    countAbove s j < countAbove s cur := by
  apply Finset.card_lt_card
  constructor
  · intro i hi
    rw [Finset.mem_filter] at hi ⊢
    obtain ⟨hir, hi1, hio⟩ := hi
    refine ⟨hir, hi1, ?_⟩
    rcases hio with h0 | hlt
    · omega
    · rcases hkey with hc0 | hck
      · exact Or.inl hc0
      · exact Or.inr (bLt_trans hck hlt)
  · intro hsub
    have hjmem : j ∈ (Finset.range s.nodes.length).filter
        (fun i => 1 ≤ i ∧ (cur = 0 ∨ bLt (keyOf s cur) (keyOf s i))) := by
      rw [Finset.mem_filter]
      exact ⟨Finset.mem_range.mpr hjn, hj1, hkey⟩
    have := hsub hjmem
    rw [Finset.mem_filter] at this
    obtain ⟨-, -, hor⟩ := this
    rcases hor with h0 | hlt
    · omega
    · exact bLt_irrefl _ hlt

theorem getD_set_self {α : Type} {l : List α} {i : Nat} (v d : α) (h : i < l.length) :
    (l.set i v).getD i d = v := by
  rw [List.getD_eq_getD_get?, List.get?_set_eq_of_lt _ h]
  rfl

theorem getD_set_other {α : Type} {l : List α} {i j : Nat} (v d : α) (h : i ≠ j) :
    (l.set i v).getD j d = l.getD j d := by
  rw [List.getD_eq_getD_get?, List.get?_set_ne _ _ h, ← List.getD_eq_getD_get?]

theorem getD_replicate_zero : ∀ (n i : Nat), (List.replicate n (0 : Nat)).getD i 0 = 0 := by
  intro n
  induction n with
  | zero => intro i; cases i <;> rfl
  | succ m ih => intro i; cases i with
    | zero => rfl
    | succ k => simpa [List.replicate] using ih k

theorem less_than_eq_some_false (s : SkipList) (key : List Nat) (j : Nat) :
    s.less_than_eq key (some j) = false ↔ bLt (keyOf s j) key := by
  rw [← bytesCmp_gt_iff]
  unfold SkipList.less_than_eq
  cases h : bytesCmp key (keyOf s j) <;> simp [h]

/-- The specification of the predecessor recorded at one level: the head
sentinel, or an on-chain node with key strictly below the target; either
way its forward reference at that level does not point strictly below the
target. -/
def PredSpec (s : SkipList) (key : List Nat) (L p : Nat) : Prop :=
  (p = 0 ∨ ((∀ l, NodeChain s L 0 l → p ∈ l) ∧ bLt (keyOf s p) key ∧
            1 ≤ p ∧ p < s.nodes.length)) ∧
  s.less_than_eq key (nextOf s p L) = true

/-- Main loop-invariant lemma for the descent: on an invariant-satisfying
state, with enough fuel, from a configuration whose current node is the head
or an on-chain node below the target, the loop terminates and records
per-level predecessors satisfying `PredSpec`; the returned candidate is the
level-0 successor of the level-0 predecessor. -/
theorem find_go_spec {s : SkipList} (hInv : SLInv s) (key : List Nat) :
    ∀ fuel level cur prevs,
    level < s.current_height →
    level + 1 + countAbove s cur ≤ fuel →
    (cur = 0 ∨ ((∀ l, NodeChain s level 0 l → cur ∈ l) ∧ bLt (keyOf s cur) key ∧
                1 ≤ cur ∧ cur < s.nodes.length)) →
    prevs.length = MAX_HEIGHT →
    ∃ found prevsOut,
      find_go s key fuel level cur prevs = Except.ok (found, prevsOut) ∧
      prevsOut.length = MAX_HEIGHT ∧
      (∀ L', level < L' → prevsOut.getD L' 0 = prevs.getD L' 0) ∧
      (∀ L', L' ≤ level → PredSpec s key L' (prevsOut.getD L' 0)) ∧
      found = nextOf s (prevsOut.getD 0 0) 0 := by
  intro fuel
  induction fuel with
  | zero => intro level cur prevs hlev hfuel hcur hplen; omega
  | succ f ih =>
    intro level cur prevs hlev hfuel hcur hplen
    have hlev12 : level < MAX_HEIGHT := lt_of_lt_of_le hlev hInv.ch_ub
    by_cases hlt : s.less_than_eq key (nextOf s cur level) = true
    · have hps : PredSpec s key level cur := by
        refine ⟨?_, hlt⟩
        rcases hcur with h0 | ⟨hm, hk, h1, h2⟩
        · exact Or.inl h0
        · exact Or.inr ⟨hm, hk, h1, h2⟩
      by_cases hl : level = 0
      · subst hl
        refine ⟨nextOf s cur 0, prevs.set 0 cur, by simp [find_go, hlt], ?_, ?_, ?_, ?_⟩
        · rw [List.length_set]; exact hplen
        · intro L' hL'
          exact getD_set_other _ _ (by omega)
        · intro L' hL'
          have hL0 : L' = 0 := by omega
          subst hL0
          rw [getD_set_self _ _ (by rw [hplen]; exact hlev12)]
          exact hps
        · rw [getD_set_self _ _ (by rw [hplen]; exact hlev12)]
      · obtain ⟨K, hK⟩ : ∃ K, level = K + 1 := ⟨level - 1, by omega⟩
        subst hK
        have hcur' : cur = 0 ∨ ((∀ l, NodeChain s K 0 l → cur ∈ l) ∧
            bLt (keyOf s cur) key ∧ 1 ≤ cur ∧ cur < s.nodes.length) := by
          rcases hcur with h0 | ⟨hm, hk, h1, h2⟩
          · exact Or.inl h0
          · refine Or.inr ⟨?_, hk, h1, h2⟩
            intro l hl'
            obtain ⟨l', hl''⟩ := hInv.chains (K + 1)
            exact hInv.nested K l' l hl'' hl' cur (hm l' hl'')
        obtain ⟨found, prevsOut, heq, hlen, hhigh, hlow, hfound⟩ :=
          ih K cur (prevs.set (K + 1) cur) (by omega) (by omega) hcur'
            (by rw [List.length_set]; exact hplen)
        refine ⟨found, prevsOut, ?_, hlen, ?_, ?_, hfound⟩
        · have hstep : find_go s key (f + 1) (K + 1) cur prevs =
              find_go s key f K cur (prevs.set (K + 1) cur) := by
            simp [find_go, hlt]
          rw [hstep]; exact heq
        · intro L' hL'
          rw [hhigh L' (by omega), getD_set_other _ _ (by omega)]
        · intro L' hL'
          by_cases hLK : L' ≤ K
          · exact hlow L' hLK
          · have hLev : L' = K + 1 := by omega
            subst hLev
            rw [hhigh (K + 1) (by omega),
              getD_set_self _ _ (by rw [hplen]; exact hlev12)]
            exact hps
    · have hlt' : s.less_than_eq key (nextOf s cur level) = false := by simpa using hlt
      cases hn : nextOf s cur level with
      | none =>
        rw [hn] at hlt'
        exact absurd (less_than_eq_none s key) (by simp [hlt'])
      | some j =>
        rw [hn] at hlt'
        have hjk : bLt (keyOf s j) key := (less_than_eq_some_false s key j).mp hlt'
        have hjmemall : ∀ l, NodeChain s level 0 l → j ∈ l := by
          intro l hl
          rcases hcur with h0 | ⟨hm, _, _, _⟩
          · subst h0; exact nodeChain_next_mem hl hn
          · exact nodeChain_mem_next hl (hm l hl) hn
        obtain ⟨l₀, hl₀⟩ := hInv.chains level
        have hjmem : j ∈ l₀ := hjmemall l₀ hl₀
        obtain ⟨hj1, hjn⟩ := hInv.bounds level l₀ hl₀ j hjmem
        have hkeyopt : cur = 0 ∨ bLt (keyOf s cur) (keyOf s j) := by
          rcases hcur with h0 | ⟨hm, _, _, _⟩
          · exact Or.inl h0
          · obtain ⟨pre, post, hdec, hch⟩ := nodeChain_suffix hl₀ (hm l₀ hl₀)
            cases hch with
            | nil hnn => rw [hnn] at hn; exact absurd hn (by simp)
            | cons hs hrest =>
              rw [hn] at hs
              injection hs with hjj
              subst hjj
              have hsor := hInv.sorted level l₀ hl₀
              rw [hdec] at hsor
              have hp2 := (List.pairwise_append.mp hsor).2.1
              exact Or.inr ((List.pairwise_cons.mp hp2).1 _ (List.mem_cons_self _ _))
        have hadv : countAbove s j < countAbove s cur :=
          countAbove_advance hj1 hjn hkeyopt
        obtain ⟨found, prevsOut, heq, hlen, hhigh, hlow, hfound⟩ :=
          ih level j prevs hlev (by omega) (Or.inr ⟨hjmemall, hjk, hj1, hjn⟩) hplen
        refine ⟨found, prevsOut, ?_, hlen, hhigh, hlow, hfound⟩
        have hstep : find_go s key (f + 1) level cur prevs =
            find_go s key f level j prevs := by
          simp [find_go, hn, hlt']
        rw [hstep]; exact heq

/-- Descent contract on invariant-satisfying states: `find_greater_or_eq`
terminates normally, the predecessor vector satisfies `PredSpec` at every
in-use level and holds the head above `current_height`, and the returned
candidate node is the level-0 successor of the level-0 predecessor. -/
theorem find_greater_or_eq_spec {s : SkipList} (hInv : SLInv s) (key : List Nat) :
    ∃ found prevs,
      s.find_greater_or_eq key = Except.ok (found, prevs) ∧
      prevs.length = MAX_HEIGHT ∧
      (∀ L, s.current_height ≤ L → prevs.getD L 0 = 0) ∧
      (∀ L, L < s.current_height → PredSpec s key L (prevs.getD L 0)) ∧
      found = nextOf s (prevs.getD 0 0) 0 := by
  have hch := hInv.ch_lb
  have hchu := hInv.ch_ub
  have hca := countAbove_le s 0
  obtain ⟨found, prevsOut, heq, hlen, hhigh, hlow, hfound⟩ :=
    find_go_spec hInv key (s.nodes.length + MAX_HEIGHT) (s.current_height - 1) 0
      (List.replicate MAX_HEIGHT 0)
      (by omega) (by omega) (Or.inl rfl) (List.length_replicate _ _)
  refine ⟨found, prevsOut, heq, hlen, ?_, ?_, hfound⟩
  · intro L hL
    rw [hhigh L (by omega)]
    exact getD_replicate_zero _ _
  · intro L hL
    exact hlow L (by omega)

theorem find?_append_false {α : Type} (p : α → Bool) :
    ∀ (l₁ l₂ : List α), (∀ x ∈ l₁, p x = false) →
    (l₁ ++ l₂).find? p = l₂.find? p := by
  intro l₁
  induction l₁ with
  | nil => intro l₂ _; rfl
  | cons x xs ih =>
    intro l₂ hall
    rw [List.cons_append, List.find?_cons_of_neg _ (by simp [hall x (List.mem_cons_self _ _)]),
      ih l₂ (fun y hy => hall y (List.mem_cons_of_mem _ hy))]

theorem find?_some_split {α : Type} {p : α → Bool} :
    ∀ {l : List α} {a : α}, l.find? p = some a →
    ∃ pre post, l = pre ++ a :: post ∧ p a = true ∧ ∀ x ∈ pre, p x = false := by
  intro l
  induction l with
  | nil => intro a h; simp [List.find?] at h
  | cons x xs ih =>
    intro a h
    by_cases hx : p x = true
    · rw [List.find?_cons_of_pos _ hx] at h
      injection h with h
      subst h
      exact ⟨[], xs, rfl, hx, by simp⟩
    · rw [List.find?_cons_of_neg _ hx] at h
      obtain ⟨pre, post, heq, hpa, hpre⟩ := ih h
      refine ⟨x :: pre, post, by rw [heq]; rfl, hpa, ?_⟩
      intro y hy
      rcases List.mem_cons.mp hy with hyx | hyp
      · subst hyx; simpa using hx
      · exact hpre y hyp

theorem foldl_if_all_false (s : SkipList) (key : List Nat) :
    ∀ (l : List Nat) (a : Nat), (∀ x ∈ l, ¬ bLt (keyOf s x) key) →
    l.foldl (fun acc i => if bLt (keyOf s i) key then i else acc) a = a := by
  intro l
  induction l with
  | nil => intro a _; rfl
  | cons x xs ih =>
    intro a hall
    rw [List.foldl_cons, if_neg (hall x (List.mem_cons_self _ _))]
    exact ih a (fun y hy => hall y (List.mem_cons_of_mem _ hy))

/-- The first node of the base-level chain whose key is not below the search
key (the first node ≥ the target, in the source's comparison terms). -/
def firstGE (s : SkipList) (key : List Nat) : Option Nat :=
  (chain s 0).find? (fun i => s.less_than_eq key (some i))

/-- The last node of a chain whose key is strictly below the search key, or
the head sentinel (0) when there is none. -/
def lastLt (s : SkipList) (key : List Nat) (l : List Nat) : Nat :=
  l.foldl (fun acc i => if bLt (keyOf s i) key then i else acc) 0

/-- Elements coming after an on-chain node that satisfies the stopping test
also satisfy it (by sortedness). -/
theorem not_blt_of_sorted_tail {s : SkipList} {key : List Nat} {j : Nat} {rest : List Nat}
    (hj : ¬ bLt (keyOf s j) key)
    (hsor : (j :: rest).Pairwise (fun a b => bLt (keyOf s a) (keyOf s b))) :
    ∀ x ∈ j :: rest, ¬ bLt (keyOf s x) key := by
  intro x hx
  rcases List.mem_cons.mp hx with hxj | hxr
  · subst hxj; exact hj
  · intro hlt
    exact hj (bLt_trans ((List.pairwise_cons.mp hsor).1 x hxr) hlt)

/-- If a node's forward reference at a level is empty, its chain list is
empty. -/
theorem nodeChain_nil_of_none {s : SkipList} {L a : Nat} {l : List Nat}
    (hl : NodeChain s L a l) (hn : nextOf s a L = none) : l = [] := by
  cases hl with
  | nil _ => rfl
  | cons hs _ => rw [hs] at hn; exact absurd hn (by simp)

/-- The candidate returned by the descent is the first base-level node whose
key is at or above the target. -/
theorem predSpec_found_eq {s : SkipList} (hInv : SLInv s) {key : List Nat} {p : Nat}
    {l : List Nat} (hl : NodeChain s 0 0 l) (hps : PredSpec s key 0 p) :
    nextOf s p 0 = l.find? (fun i => s.less_than_eq key (some i)) := by
  obtain ⟨hp, hnext⟩ := hps
  rcases hp with hp0 | ⟨hmem, hpk, hp1, hpn⟩
  · subst hp0
    cases hl with
    | nil hne => rw [hne]; rfl
    | cons hs hrest =>
      rw [hs] at hnext
      rw [hs]
      symm
      apply List.find?_cons_of_pos
      exact hnext
  · obtain ⟨pre, post, hdec, hch⟩ := nodeChain_suffix hl (hmem l hl)
    have hsor := hInv.sorted 0 l hl
    rw [hdec] at hsor
    obtain ⟨hsorPre, hsorPost, hrel⟩ := List.pairwise_append.mp hsor
    have hprefail : ∀ x ∈ pre ++ [p], (s.less_than_eq key (some x) : Bool) = false := by
      intro x hx
      rcases List.mem_append.mp hx with hxpre | hxp
      · refine (less_than_eq_some_false s key x).mpr ?_
        exact bLt_trans (hrel x hxpre p (List.mem_cons_self _ _)) hpk
      · have hxep : x = p := by simpa using hxp
        subst hxep
        exact (less_than_eq_some_false s key x).mpr hpk
    rw [hdec]
    cases hch with
    | nil hne =>
      rw [hne]
      have hsp : pre ++ p :: ([] : List Nat) = (pre ++ [p]) ++ [] := by simp
      rw [hsp, find?_append_false _ _ _ hprefail]
      rfl
    | cons hs hrest =>
      rw [hs] at hnext
      rw [hs]
      have hre : ∀ (j : Nat) (rest : List Nat),
          pre ++ p :: j :: rest = (pre ++ [p]) ++ j :: rest := by
        intro j rest; simp
      rw [hre, find?_append_false _ _ _ hprefail]
      symm
      apply List.find?_cons_of_pos
      exact hnext

/-- The predecessor recorded by the descent at a level is the last node of
that level's chain with key strictly below the target (or the head). -/
theorem predSpec_eq_lastLt {s : SkipList} (hInv : SLInv s) {key : List Nat} {L p : Nat}
    {l : List Nat} (hl : NodeChain s L 0 l) (hps : PredSpec s key L p) :
    p = lastLt s key l := by
  obtain ⟨hp, hnext⟩ := hps
  unfold lastLt
  rcases hp with hp0 | ⟨hmem, hpk, hp1, hpn⟩
  · subst hp0
    cases hl with
    | nil hne => rfl
    | cons hs hrest =>
      rw [hs] at hnext
      have hj := (less_than_eq_some_iff s key _).mp hnext
      have hsor := hInv.sorted L _ (NodeChain.cons hs hrest)
      symm
      exact foldl_if_all_false s key _ 0 (not_blt_of_sorted_tail hj hsor)
  · obtain ⟨pre, post, hdec, hch⟩ := nodeChain_suffix hl (hmem l hl)
    have hsor := hInv.sorted L l hl
    subst hdec
    rw [List.foldl_append, List.foldl_cons, if_pos hpk]
    symm
    apply foldl_if_all_false
    cases hch with
    | nil hne => intro x hx; exact absurd hx (List.not_mem_nil x)
    | cons hs hrest =>
      rw [hs] at hnext
      have hj := (less_than_eq_some_iff s key _).mp hnext
      obtain ⟨hsorPre, hsorPost, hrel⟩ := List.pairwise_append.mp hsor
      exact not_blt_of_sorted_tail hj (List.pairwise_cons.mp hsorPost).2

/-- When a real node holds the search key, the first-at-or-above node of the
base chain is exactly that node. -/
theorem firstGE_of_present {s : SkipList} (hInv : SLInv s) {key : List Nat} {i : Nat}
    {l₀ : List Nat} (hl₀ : NodeChain s 0 0 l₀)
    (hi1 : 1 ≤ i) (hin : i < s.nodes.length) (hkey : keyOf s i = key) :
    l₀.find? (fun x => s.less_than_eq key (some x)) = some i := by
  have himem : i ∈ l₀ := hInv.complete l₀ hl₀ i hi1 hin
  have hipred : s.less_than_eq key (some i) = true := by
    rw [less_than_eq_some_iff, hkey]
    exact bLt_irrefl key
  cases hfind : l₀.find? (fun x => s.less_than_eq key (some x)) with
  | none =>
    rw [List.find?_eq_none] at hfind
    exact absurd hipred (by simpa using hfind i himem)
  | some j =>
    obtain ⟨pre, post, hdec, hpj, hpre⟩ := find?_some_split hfind
    have hij : i = j := by
      by_contra hne
      have hior : i ∈ pre ∨ i ∈ post := by
        rw [hdec] at himem
        rcases List.mem_append.mp himem with h | h
        · exact Or.inl h
        · rcases List.mem_cons.mp h with h' | h'
          · exact absurd h' hne
          · exact Or.inr h'
      rcases hior with h | h
      · exact absurd hipred (by simp [hpre i h])
      · have hsor := hInv.sorted 0 l₀ hl₀
        rw [hdec] at hsor
        have hrel := (List.pairwise_append.mp hsor).2.1
        have hji : bLt (keyOf s j) (keyOf s i) := (List.pairwise_cons.mp hrel).1 i h
        rw [hkey] at hji
        exact (less_than_eq_some_iff s key j).mp (by simpa using hpj) hji
    rw [hij]

/-- `get` finds the value stored at any real node holding the search key. -/
theorem get_present {s : SkipList} (hInv : SLInv s) {key : List Nat} {i : Nat}
    (hi1 : 1 ≤ i) (hin : i < s.nodes.length) (hkey : keyOf s i = key) :
    s.get key = Except.ok (some (valueOf s i)) := by
  obtain ⟨found, prevs, heq, hlen, hhigh, hlow, hfound⟩ := find_greater_or_eq_spec hInv key
  obtain ⟨l₀, hl₀⟩ := hInv.chains 0
  have hps := hlow 0 hInv.ch_lb
  have hfi : found = some i := by
    rw [hfound, predSpec_found_eq hInv hl₀ hps]
    exact firstGE_of_present hInv hl₀ hi1 hin hkey
  unfold SkipList.get
  rw [heq, hfi]
  simp [hkey, bytesCmp_self]

/-- If the duplicate check passes, no real node holds the search key. -/
theorem keys_fresh_of_dup_false {s : SkipList} (hInv : SLInv s) {key : List Nat}
    {found : Option Nat} {prevs : List Nat}
    (hfound : found = nextOf s (prevs.getD 0 0) 0)
    (hps : PredSpec s key 0 (prevs.getD 0 0))
    (hdup : dupCheck s key found = false) :
    ∀ i, 1 ≤ i → i < s.nodes.length → keyOf s i ≠ key := by
  intro i hi1 hin hkeyi
  obtain ⟨l₀, hl₀⟩ := hInv.chains 0
  have hfi : found = some i := by
    rw [hfound, predSpec_found_eq hInv hl₀ hps]
    exact firstGE_of_present hInv hl₀ hi1 hin hkeyi
  rw [hfi] at hdup
  simp only [dupCheck] at hdup
  rw [hkeyi, bytesCmp_self] at hdup
  simp at hdup

/-! ### Arena update lemmas -/

theorem getD_replicate_self {α : Type} (a : α) :
    ∀ (m i : Nat), (List.replicate m a).getD i a = a := by
  intro m
  induction m with
  | zero => intro i; cases i <;> rfl
  | succ m' ih => intro i; cases i with
    | zero => rfl
    | succ k => simpa [List.replicate] using ih k

theorem nodeAt_append_lt {ns : List SkipListNode} (l : List SkipListNode) {i : Nat}
    (h : i < ns.length) : nodeAt (ns ++ l) i = nodeAt ns i := by
  unfold nodeAt
  exact List.getD_append _ _ _ _ h

theorem nodeAt_append_self (ns : List SkipListNode) (x : SkipListNode) :
    nodeAt (ns ++ [x]) ns.length = x := by
  unfold nodeAt
  rw [List.getD_append_right _ _ _ _ (le_refl _)]
  simp

theorem nodeAt_of_length_le {ns : List SkipListNode} {i : Nat} (h : ns.length ≤ i) :
    nodeAt ns i = default := by
  unfold nodeAt
  exact List.getD_eq_default _ _ h

theorem setNext_length (nodes : List SkipListNode) (i L : Nat) (v : Option Nat) :
    (setNext nodes i L v).length = nodes.length :=
  List.length_set _ _ _

theorem nodeAt_setNext_other {nodes : List SkipListNode} {i i' : Nat} (L : Nat) (v : Option Nat)
    (h : i ≠ i') : nodeAt (setNext nodes i L v) i' = nodeAt nodes i' := by
  unfold setNext nodeAt
  rw [List.getD_eq_getD_get?, List.get?_set_ne _ _ h, ← List.getD_eq_getD_get?]

theorem nodeAt_setNext_self {nodes : List SkipListNode} {i : Nat} (L : Nat) (v : Option Nat)
    (h : i < nodes.length) :
    nodeAt (setNext nodes i L v) i =
      { nodeAt nodes i with next := (nodeAt nodes i).next.set L v } := by
  unfold setNext nodeAt
  rw [List.getD_eq_getD_get?, List.get?_set_eq_of_lt _ h]
  rfl

theorem nodeAt_setNext_big {nodes : List SkipListNode} {i : Nat} (L : Nat) (v : Option Nat)
    (h : nodes.length ≤ i) : setNext nodes i L v = nodes := by
  unfold setNext
  exact List.set_eq_of_length_le (by simpa using h)

theorem nextOfL_setNext_self {nodes : List SkipListNode} {i L : Nat} (v : Option Nat)
    (hi : i < nodes.length) (hL : L < (nodeAt nodes i).next.length) :
    nextOfL (setNext nodes i L v) i L = v := by
  unfold nextOfL
  rw [nodeAt_setNext_self L v hi]
  exact getD_set_self _ _ hL

theorem nextOfL_setNext_other {nodes : List SkipListNode} {i i' L L' : Nat} (v : Option Nat)
    (h : i ≠ i' ∨ L ≠ L') :
    nextOfL (setNext nodes i L v) i' L' = nextOfL nodes i' L' := by
  rcases h with h | h
  · unfold nextOfL
    rw [nodeAt_setNext_other L v h]
  · by_cases hii : i = i'
    · subst hii
      by_cases hlen : i < nodes.length
      · unfold nextOfL
        rw [nodeAt_setNext_self L v hlen]
        exact getD_set_other _ _ h
      · rw [nodeAt_setNext_big L v (le_of_not_lt hlen)]
    · unfold nextOfL
      rw [nodeAt_setNext_other L v hii]

theorem key_setNext (nodes : List SkipListNode) (i L : Nat) (v : Option Nat) (i' : Nat) :
    (nodeAt (setNext nodes i L v) i').key = (nodeAt nodes i').key := by
  by_cases hii : i = i'
  · subst hii
    by_cases hlen : i < nodes.length
    · rw [nodeAt_setNext_self L v hlen]
    · rw [nodeAt_setNext_big L v (le_of_not_lt hlen)]
  · rw [nodeAt_setNext_other L v hii]

theorem value_setNext (nodes : List SkipListNode) (i L : Nat) (v : Option Nat) (i' : Nat) :
    (nodeAt (setNext nodes i L v) i').value = (nodeAt nodes i').value := by
  by_cases hii : i = i'
  · subst hii
    by_cases hlen : i < nodes.length
    · rw [nodeAt_setNext_self L v hlen]
    · rw [nodeAt_setNext_big L v (le_of_not_lt hlen)]
  · rw [nodeAt_setNext_other L v hii]

theorem next_len_setNext (nodes : List SkipListNode) (i L : Nat) (v : Option Nat) (i' : Nat) :
    (nodeAt (setNext nodes i L v) i').next.length = (nodeAt nodes i').next.length := by
  by_cases hii : i = i'
  · subst hii
    by_cases hlen : i < nodes.length
    · rw [nodeAt_setNext_self L v hlen]
      simp
    · rw [nodeAt_setNext_big L v (le_of_not_lt hlen)]
  · rw [nodeAt_setNext_other L v hii]

theorem spliceAll_length (ns : List SkipListNode) (prevs : List Nat) (nIdx : Nat) :
    ∀ h, (spliceAll ns prevs nIdx h).length = ns.length := by
  intro h
  induction h with
  | zero => rfl
  | succ m ih =>
    simp only [spliceAll, spliceOne, setNext_length]
    exact ih

theorem spliceAll_key (ns : List SkipListNode) (prevs : List Nat) (nIdx : Nat) :
    ∀ h i, (nodeAt (spliceAll ns prevs nIdx h) i).key = (nodeAt ns i).key := by
  intro h
  induction h with
  | zero => intro i; rfl
  | succ m ih =>
    intro i
    simp only [spliceAll, spliceOne, key_setNext]
    exact ih i

theorem spliceAll_value (ns : List SkipListNode) (prevs : List Nat) (nIdx : Nat) :
    ∀ h i, (nodeAt (spliceAll ns prevs nIdx h) i).value = (nodeAt ns i).value := by
  intro h
  induction h with
  | zero => intro i; rfl
  | succ m ih =>
    intro i
    simp only [spliceAll, spliceOne, value_setNext]
    exact ih i

theorem spliceAll_next_len (ns : List SkipListNode) (prevs : List Nat) (nIdx : Nat) :
    ∀ h i, (nodeAt (spliceAll ns prevs nIdx h) i).next.length = (nodeAt ns i).next.length := by
  intro h
  induction h with
  | zero => intro i; rfl
  | succ m ih =>
    intro i
    simp only [spliceAll, spliceOne, next_len_setNext]
    exact ih i

/-- Pointwise effect of the whole splice loop on forward references: the new
node's slots below the tower height receive the old successors of the
per-level predecessors, the predecessors' slots point at the new node, and
everything else is untouched. -/
theorem spliceAll_nextOf (ns : List SkipListNode) (prevs : List Nat) (nIdx : Nat)
    (hn : nIdx < ns.length)
    (hlen12 : ∀ i, i < ns.length → (nodeAt ns i).next.length = MAX_HEIGHT) :
    ∀ h, h ≤ MAX_HEIGHT → (∀ L, L < h → prevs.getD L 0 < nIdx) →
    ∀ i L, nextOfL (spliceAll ns prevs nIdx h) i L =
      if L < h ∧ i = nIdx then nextOfL ns (prevs.getD L 0) L
      else if L < h ∧ i = prevs.getD L 0 then some nIdx
      else nextOfL ns i L := by
  intro h
  induction h with
  | zero =>
    intro _ _ i L
    simp [spliceAll]
  | succ m ih =>
    intro hm hp i L
    have ihm := ih (by omega) (fun L hL => hp L (by omega))
    have hpn : prevs.getD m 0 < nIdx := hp m (by omega)
    have hplen : prevs.getD m 0 < ns.length := by omega
    have hlenA : (spliceAll ns prevs nIdx m).length = ns.length := spliceAll_length _ _ _ _
    have hsucc : nextOfL (spliceAll ns prevs nIdx m) (prevs.getD m 0) m =
        nextOfL ns (prevs.getD m 0) m := by
      rw [ihm (prevs.getD m 0) m]
      rw [if_neg (by omega), if_neg (by omega)]
    simp only [spliceAll, spliceOne, hsucc]
    by_cases hLm : L = m
    · subst hLm
      by_cases hin : i = nIdx
      · subst hin
        rw [nextOfL_setNext_other _ (Or.inl (by omega)),
          nextOfL_setNext_self _ (by rw [hlenA]; exact hn)
            (by rw [spliceAll_next_len, hlen12 i hn]; omega)]
        rw [if_pos ⟨by omega, rfl⟩]
      · by_cases hip : i = prevs.getD L 0
        · subst hip
          rw [nextOfL_setNext_self _
            (by rw [setNext_length, hlenA]; exact hplen)
            (by rw [next_len_setNext, spliceAll_next_len, hlen12 _ hplen]; omega)]
          rw [if_neg (by omega), if_pos ⟨by omega, rfl⟩]
        · rw [nextOfL_setNext_other _ (Or.inl (fun he => hip he.symm)),
            nextOfL_setNext_other _ (Or.inl (fun he => hin he.symm)), ihm i L]
          rw [if_neg (by omega), if_neg (by omega), if_neg (by omega),
            if_neg (by intro hc; exact hip hc.2)]
    · rw [nextOfL_setNext_other _ (Or.inr (fun he => hLm he.symm)),
        nextOfL_setNext_other _ (Or.inr (fun he => hLm he.symm)), ihm i L]
      by_cases hLlt : L < m
      · have hLlt' : L < m + 1 := by omega
        by_cases hbn : i = nIdx
        · rw [if_pos ⟨hLlt, hbn⟩, if_pos ⟨hLlt', hbn⟩]
        · by_cases hbp : i = prevs.getD L 0
          · rw [if_neg (by intro hc; exact hbn hc.2), if_pos ⟨hLlt, hbp⟩,
              if_neg (by intro hc; exact hbn hc.2), if_pos ⟨hLlt', hbp⟩]
          · rw [if_neg (by intro hc; exact hbn hc.2), if_neg (by intro hc; exact hbp hc.2),
              if_neg (by intro hc; exact hbn hc.2), if_neg (by intro hc; exact hbp hc.2)]
      · rw [if_neg (by omega), if_neg (by omega), if_neg (by omega), if_neg (by omega)]

/-- Pointwise description of the level-expansion write. -/
theorem expandPrevs_getD :
    ∀ (ps : List Nat) (lo c i : Nat),
    (expandPrevs ps lo c).getD i 0 = if lo ≤ i ∧ i < lo + c then 0 else ps.getD i 0 := by
  intro ps
  induction ps with
  | nil =>
    intro lo c i
    by_cases hc : lo ≤ i ∧ i < lo + c
    · simp [expandPrevs, hc]
    · simp [expandPrevs, hc]
  | cons x xs ih =>
    intro lo c i
    match lo, c with
    | 0, 0 =>
      have hc : ¬ (0 ≤ i ∧ i < 0 + 0) := by omega
      simp [expandPrevs, hc]
    | 0, c' + 1 =>
      cases i with
      | zero => simp [expandPrevs]
      | succ i' =>
        have hstep : (expandPrevs (x :: xs) 0 (c' + 1)).getD (i' + 1) 0 =
            (expandPrevs xs 0 c').getD i' 0 := rfl
        rw [hstep, ih 0 c' i']
        by_cases hc : i' < c'
        · rw [if_pos (by omega), if_pos (by omega)]
        · rw [if_neg (by omega), if_neg (by omega)]
          rfl
    | lo' + 1, c' =>
      cases i with
      | zero =>
        have hc : ¬ (lo' + 1 ≤ 0 ∧ (0 : Nat) < lo' + 1 + c') := by omega
        simp [expandPrevs, hc]
      | succ i' =>
        have hstep : (expandPrevs (x :: xs) (lo' + 1) c').getD (i' + 1) 0 =
            (expandPrevs xs lo' c').getD i' 0 := rfl
        rw [hstep, ih lo' c' i']
        by_cases hc : lo' ≤ i' ∧ i' < lo' + c'
        · rw [if_pos hc, if_pos (by omega)]
        · rw [if_neg hc, if_neg (by omega)]
          rfl

/-- Chain transport between states: if the links along a chain are unchanged
and the new start has the old start's link, the chain carries over. -/
theorem nodeChain_congr2 {s s' : SkipList} {L a b : Nat} {l : List Nat}
    (h : NodeChain s L a l) (hb : nextOf s' b L = nextOf s a L)
    (hl : ∀ i ∈ l, nextOf s' i L = nextOf s i L) : NodeChain s' L b l := by
  induction h generalizing b with
  | nil hn => exact NodeChain.nil (by rw [hb, hn])
  | cons hs hrest ih =>
    refine NodeChain.cons (by rw [hb, hs]) (ih ?_ ?_)
    · exact hl _ (List.mem_cons_self _ _)
    · intro i hi
      exact hl i (List.mem_cons_of_mem _ hi)

/-- Splicing a fresh node right after `p` rewrites a chain of the old state
into the corresponding chain of the new state. -/
theorem nodeChain_insert_after {s s' : SkipList} {L p nIdx : Nat} :
    ∀ {pre : List Nat} {a : Nat} {post : List Nat},
    NodeChain s L a (pre ++ p :: post) →
    (∀ i, (i = a ∨ i ∈ pre ++ p :: post) → i ≠ p → nextOf s' i L = nextOf s i L) →
    nextOf s' p L = some nIdx →
    nextOf s' nIdx L = nextOf s p L →
    p ∉ pre → p ∉ post → a ≠ p →
    NodeChain s' L a (pre ++ p :: nIdx :: post) := by
  intro pre
  induction pre with
  | nil =>
    intro a post hch hsame hpn hnn _ hppost hap
    rw [List.nil_append] at hch ⊢
    cases hch with
    | cons hs hrest =>
      refine NodeChain.cons ((hsame a (Or.inl rfl) hap).trans hs) (NodeChain.cons hpn ?_)
      refine nodeChain_congr2 hrest hnn ?_
      intro i hi
      exact hsame i (Or.inr (List.mem_cons_of_mem _ hi)) (fun he => hppost (he ▸ hi))
  | cons x pre' ih =>
    intro a post hch hsame hpn hnn hppre hppost hap
    rw [List.cons_append] at hch ⊢
    cases hch with
    | cons hs hrest =>
      have hxp : x ≠ p := fun he => hppre (by rw [he]; exact List.mem_cons_self _ _)
      refine NodeChain.cons ((hsame a (Or.inl rfl) hap).trans hs) ?_
      refine ih hrest ?_ hpn hnn (fun hm => hppre (List.mem_cons_of_mem _ hm)) hppost hxp
      intro i hi hip
      rcases hi with hi | hi
      · exact hsame i (Or.inr (by rw [hi]; exact List.mem_cons_self _ _)) hip
      · exact hsame i (Or.inr (List.mem_cons_of_mem _ hi)) hip

/-- Every forward reference of a fresh map is empty. -/
theorem nextOf_new (i L : Nat) : nextOf SkipList.new i L = none := by
  unfold nextOf nextOfL SkipList.new
  cases i with
  | zero => exact getD_replicate_self none MAX_HEIGHT L
  | succ k =>
    rw [nodeAt_of_length_le (by simp)]
    rfl

/-- The fresh map satisfies the structural invariant. -/
theorem SLInv_new : SLInv SkipList.new := by
  have hlen : SkipList.new.nodes.length = 1 := rfl
  refine ⟨by rw [hlen], ?_, le_refl 1, by norm_num [SkipList.new, MAX_HEIGHT], ?_, ?_, ?_,
    ?_, ?_, ?_, ?_⟩
  · intro i hi
    rw [hlen] at hi
    have hi0 : i = 0 := by omega
    subst hi0
    rfl
  · intro L
    exact ⟨[], NodeChain.nil (nextOf_new 0 L)⟩
  · intro L l hl
    rw [nodeChain_nil_of_none hl (nextOf_new 0 L)]
    exact List.Pairwise.nil
  · intro L l hl i hi
    rw [nodeChain_nil_of_none hl (nextOf_new 0 L)] at hi
    exact absurd hi (List.not_mem_nil i)
  · intro l hl i h1 h2
    rw [hlen] at h2
    omega
  · intro L l' l hl' hl i hi
    rw [nodeChain_nil_of_none hl' (nextOf_new 0 (L + 1))] at hi
    exact absurd hi (List.not_mem_nil i)
  · intro i j h1 h2 h3 h4 h5
    rw [hlen] at h2
    omega
  · intro L _
    exact nextOf_new 0 L

theorem bLt_of_not_lt_of_ne {a b : List Nat} (h1 : ¬ bLt a b) (h2 : a ≠ b) : bLt b a := by
  cases hc : bytesCmp a b with
  | lt => exact absurd hc h1
  | eq => exact absurd (bytesCmp_eq_iff.mp hc) h2
  | gt => exact bytesCmp_gt_iff.mp hc

theorem pairwise_transfer {s s' : SkipList} {l : List Nat}
    (hkeq : ∀ x ∈ l, keyOf s' x = keyOf s x)
    (h : l.Pairwise (fun i j => bLt (keyOf s i) (keyOf s j))) :
    l.Pairwise (fun i j => bLt (keyOf s' i) (keyOf s' j)) := by
  refine h.imp_of_mem ?_
  intro a b ha hb hr
  rw [hkeq _ ha, hkeq _ hb]
  exact hr

/-- Everything a successful insertion establishes about the new state, for a
sampled tower height `h`. -/
structure InsertSpec (s s' : SkipList) (k v : List Nat) (h : Nat) : Prop where
  inv' : SLInv s'
  len : s'.nodes.length = s.nodes.length + 1
  newkey : keyOf s' s.nodes.length = k
  newval : valueOf s' s.nodes.length = v
  oldkey : ∀ i, i ≠ s.nodes.length → keyOf s' i = keyOf s i
  oldval : ∀ i, i ≠ s.nodes.length → valueOf s' i = valueOf s i
  fresh : ∀ i, 1 ≤ i → i < s.nodes.length → keyOf s i ≠ k
  ch_mono : s.current_height ≤ s'.current_height
  ch_eq : s'.current_height = if s.current_height < h then h else s.current_height
  newlen : (nodeAt s'.nodes s.nodes.length).next.length = MAX_HEIGHT
  newhigh : ∀ L, h ≤ L → nextOf s' s.nodes.length L = none
  mem_chain : ∀ L, L < h → s.nodes.length ∈ chain s' L
  high_chain : ∀ L, h ≤ L → chain s' L = chain s L
  base_perm : (chain s' 0).Perm (chain s 0 ++ [s.nodes.length])

/-- Master lemma: a successful `insert` preserves the structural invariant
and splices exactly one new node, carrying the inserted key and value, into
the chains of the levels below the sampled height. -/
theorem insert_ok_spec {s : SkipList} (hInv : SLInv s) {k v : List Nat} {d : Nat → Nat}
    {s' : SkipList} (hok : s.insert k v d = InsertResult.ok s') :
    InsertSpec s s' k v (calculate_random_height d) := by
  have hn1 : 1 ≤ s.nodes.length := hInv.nodes_pos
  have hchl := hInv.ch_lb
  have hchu := hInv.ch_ub
  obtain ⟨hh1, hh12⟩ := calculate_random_height_bounds d
  obtain ⟨found, prevs, hf, hlen, hhigh, hlow, hfound⟩ := find_greater_or_eq_spec hInv k
  unfold SkipList.insert at hok
  rw [hf] at hok
  dsimp only at hok
  by_cases hdup : dupCheck s k found = true
  · rw [if_pos hdup] at hok
    exact absurd hok (by simp)
  rw [if_neg hdup] at hok
  have hdupf : dupCheck s k found = false := by simpa using hdup
  simp only [InsertResult.ok.injEq] at hok
  have hnodes' : s'.nodes = spliceAll (s.nodes ++ [SkipListNode.new k v])
      (if s.current_height < calculate_random_height d
       then expandPrevs prevs s.current_height (calculate_random_height d) else prevs)
      s.nodes.length (calculate_random_height d) := by
    rw [← hok]
  have hch' : s'.current_height = (if s.current_height < calculate_random_height d
      then calculate_random_height d else s.current_height) := by
    rw [← hok]
  have hPS : ∀ L, PredSpec s k L (prevs.getD L 0) := by
    intro L
    by_cases hL : L < s.current_height
    · exact hlow L hL
    · refine ⟨Or.inl (hhigh L (le_of_not_lt hL)), ?_⟩
      rw [hhigh L (le_of_not_lt hL), hInv.high_empty L (le_of_not_lt hL)]
      exact less_than_eq_none s k
  have hplt : ∀ L, prevs.getD L 0 < s.nodes.length := by
    intro L
    rcases (hPS L).1 with h0 | ⟨_, _, _, hlt⟩
    · omega
    · exact hlt
  have hfresh : ∀ i, 1 ≤ i → i < s.nodes.length → keyOf s i ≠ k :=
    keys_fresh_of_dup_false hInv hfound (hPS 0) hdupf
  have hpre2 : ∀ L, (if s.current_height < calculate_random_height d
      then expandPrevs prevs s.current_height (calculate_random_height d)
      else prevs).getD L 0 = prevs.getD L 0 := by
    intro L
    by_cases hch : s.current_height < calculate_random_height d
    · rw [if_pos hch, expandPrevs_getD]
      by_cases hw : s.current_height ≤ L ∧ L < s.current_height + calculate_random_height d
      · rw [if_pos hw, hhigh L hw.1]
      · rw [if_neg hw]
    · rw [if_neg hch]
  have hns0len : (s.nodes ++ [SkipListNode.new k v]).length = s.nodes.length + 1 := by
    simp
  have hns0len12 : ∀ i, i < (s.nodes ++ [SkipListNode.new k v]).length →
      (nodeAt (s.nodes ++ [SkipListNode.new k v]) i).next.length = MAX_HEIGHT := by
    intro i hi
    rw [hns0len] at hi
    by_cases hilt : i < s.nodes.length
    · rw [nodeAt_append_lt _ hilt]
      exact hInv.next_len i hilt
    · have hieq : i = s.nodes.length := by omega
      subst hieq
      rw [nodeAt_append_self]
      simp [SkipListNode.new]
  have hns0next : ∀ j L, nextOfL (s.nodes ++ [SkipListNode.new k v]) j L =
      if j = s.nodes.length then none else nextOf s j L := by
    intro j L
    by_cases hj : j = s.nodes.length
    · subst hj
      rw [if_pos rfl]
      unfold nextOfL
      rw [nodeAt_append_self]
      exact getD_replicate_self none MAX_HEIGHT L
    · rw [if_neg hj]
      by_cases hjl : j < s.nodes.length
      · unfold nextOf nextOfL
        rw [nodeAt_append_lt _ hjl]
      · unfold nextOf nextOfL
        rw [nodeAt_of_length_le (by rw [hns0len]; omega),
          nodeAt_of_length_le (by omega)]
  have hsplice := spliceAll_nextOf (s.nodes ++ [SkipListNode.new k v])
    (if s.current_height < calculate_random_height d
     then expandPrevs prevs s.current_height (calculate_random_height d) else prevs)
    s.nodes.length (by omega) hns0len12 (calculate_random_height d) hh12
    (fun L hL => by rw [hpre2 L]; exact hplt L)
  have hlen' : s'.nodes.length = s.nodes.length + 1 := by
    rw [hnodes', spliceAll_length, hns0len]
  have hkey' : ∀ i, keyOf s' i = if i = s.nodes.length then k else keyOf s i := by
    intro i
    unfold keyOf
    rw [hnodes', spliceAll_key]
    by_cases hieq : i = s.nodes.length
    · subst hieq
      rw [if_pos rfl, nodeAt_append_self]
      rfl
    · rw [if_neg hieq]
      by_cases hilt : i < s.nodes.length
      · rw [nodeAt_append_lt _ hilt]
      · rw [nodeAt_of_length_le (by rw [hns0len]; omega), nodeAt_of_length_le (by omega)]
  have hval' : ∀ i, valueOf s' i = if i = s.nodes.length then v else valueOf s i := by
    intro i
    unfold valueOf
    rw [hnodes', spliceAll_value]
    by_cases hieq : i = s.nodes.length
    · subst hieq
      rw [if_pos rfl, nodeAt_append_self]
      rfl
    · rw [if_neg hieq]
      by_cases hilt : i < s.nodes.length
      · rw [nodeAt_append_lt _ hilt]
      · rw [nodeAt_of_length_le (by rw [hns0len]; omega), nodeAt_of_length_le (by omega)]
  have hnext' : ∀ i L, nextOf s' i L =
      if L < calculate_random_height d ∧ i = s.nodes.length
        then nextOf s (prevs.getD L 0) L
      else if L < calculate_random_height d ∧ i = prevs.getD L 0 then some s.nodes.length
      else if i = s.nodes.length then none
      else nextOf s i L := by
    intro i L
    unfold nextOf
    rw [hnodes', hsplice i L, hpre2 L]
    by_cases hc1 : L < calculate_random_height d ∧ i = s.nodes.length
    · rw [if_pos hc1, if_pos hc1, hns0next]
      rw [if_neg (by have := hplt L; omega)]
      rfl
    · rw [if_neg hc1, if_neg hc1]
      by_cases hc2 : L < calculate_random_height d ∧ i = prevs.getD L 0
      · rw [if_pos hc2, if_pos hc2]
      · rw [if_neg hc2, if_neg hc2, hns0next]
        by_cases hc3 : i = s.nodes.length
        · rw [if_pos hc3, if_pos hc3]
        · rw [if_neg hc3, if_neg hc3]
          rfl
  have h0n : (0 : Nat) ≠ s.nodes.length := by omega
  have hkn : keyOf s' s.nodes.length = k := by
    rw [hkey' s.nodes.length]
    simp
  have hvn : valueOf s' s.nodes.length = v := by
    rw [hval' s.nodes.length]
    simp
  have hkeqold : ∀ i, i < s.nodes.length → keyOf s' i = keyOf s i := by
    intro i hi
    rw [hkey' i, if_neg (by omega)]
  have hlev : ∀ L, ∃ l l', NodeChain s L 0 l ∧ NodeChain s' L 0 l' ∧
      l'.Pairwise (fun i j => bLt (keyOf s' i) (keyOf s' j)) ∧
      ((calculate_random_height d ≤ L ∧ l' = l) ∨
        (L < calculate_random_height d ∧ l'.Perm (l ++ [s.nodes.length]) ∧
          s.nodes.length ∈ l')) := by
    intro L
    obtain ⟨l, hl⟩ := hInv.chains L
    have hbnd := hInv.bounds L l hl
    have hsor := hInv.sorted L l hl
    have hkeq : ∀ x ∈ l, keyOf s' x = keyOf s x := fun x hx =>
      hkeqold x (hbnd x hx).2
    by_cases hLh : calculate_random_height d ≤ L
    · refine ⟨l, l, hl, ?_, pairwise_transfer hkeq hsor, Or.inl ⟨hLh, rfl⟩⟩
      refine nodeChain_congr2 hl ?_ ?_
      · rw [hnext' 0 L, if_neg (by omega), if_neg (by omega), if_neg h0n]
      · intro i hi
        have hib := hbnd i hi
        rw [hnext' i L, if_neg (by omega), if_neg (by omega), if_neg (by omega)]
    · push_neg at hLh
      obtain ⟨hp, hnextp⟩ := hPS L
      rcases hp with hp0 | ⟨hmem, hpk, hp1, hplt2⟩
      · have hgt : ∀ x ∈ l, bLt k (keyOf s x) := by
          intro x hx
          cases hl with
          | nil hne => exact absurd hx (List.not_mem_nil x)
          | cons hs hrest =>
            rename_i j rest
            rw [hp0, hs] at hnextp
            have hjge : ¬ bLt (keyOf s j) k := (less_than_eq_some_iff s k j).mp hnextp
            have hjb := hbnd j (List.mem_cons_self _ _)
            have hkj : bLt k (keyOf s j) :=
              bLt_of_not_lt_of_ne hjge (hfresh j hjb.1 hjb.2)
            rcases List.mem_cons.mp hx with hxj | hxr
            · rw [hxj]; exact hkj
            · exact bLt_trans hkj ((List.pairwise_cons.mp hsor).1 x hxr)
        refine ⟨l, s.nodes.length :: l, hl, ?_, ?_,
          Or.inr ⟨hLh, (List.perm_append_singleton _ _).symm, List.mem_cons_self _ _⟩⟩
        · refine NodeChain.cons ?_ ?_
          · rw [hnext' 0 L, if_neg (by omega), if_pos ⟨hLh, hp0.symm⟩]
          · refine nodeChain_congr2 hl ?_ ?_
            · rw [hnext' s.nodes.length L, if_pos ⟨hLh, rfl⟩, hp0]
            · intro i hi
              have hib := hbnd i hi
              rw [hnext' i L, if_neg (by omega),
                if_neg (by intro hc; rw [hp0] at hc; omega), if_neg (by omega)]
        · rw [List.pairwise_cons]
          refine ⟨?_, pairwise_transfer hkeq hsor⟩
          intro x hx
          rw [hkn, hkeq x hx]
          exact hgt x hx
      · have hpmem := hmem l hl
        obtain ⟨pre, post, hdec, hchp⟩ := nodeChain_suffix hl hpmem
        have hnd : l.Nodup := nodeChain_nodup hInv hl
        rw [hdec] at hnd
        obtain ⟨hndpre, hndcons, hdisj⟩ := List.nodup_append.mp hnd
        have hppre : (prevs.getD L 0) ∉ pre := fun hc =>
          hdisj hc (List.mem_cons_self _ _)
        have hppost : (prevs.getD L 0) ∉ post := (List.nodup_cons.mp hndcons).1
        have hsor2 := hsor
        rw [hdec] at hsor2
        obtain ⟨hsorPre, hsorPost, hrelPre⟩ := List.pairwise_append.mp hsor2
        have hmempost : ∀ x ∈ post, x ∈ l := by
          intro x hx
          rw [hdec]
          exact List.mem_append.mpr (Or.inr (List.mem_cons_of_mem _ hx))
        have hmempre : ∀ x ∈ pre, x ∈ l := by
          intro x hx
          rw [hdec]
          exact List.mem_append.mpr (Or.inl hx)
        have hgt : ∀ x ∈ post, bLt k (keyOf s x) := by
          intro x hx
          cases hchp with
          | nil hne => exact absurd hx (List.not_mem_nil x)
          | cons hs hrest =>
            rename_i j rest
            rw [hs] at hnextp
            have hjge : ¬ bLt (keyOf s j) k := (less_than_eq_some_iff s k j).mp hnextp
            have hjmem : j ∈ l := hmempost j (List.mem_cons_self _ _)
            have hjb := hbnd j hjmem
            have hkj : bLt k (keyOf s j) :=
              bLt_of_not_lt_of_ne hjge (hfresh j hjb.1 hjb.2)
            rcases List.mem_cons.mp hx with hxj | hxr
            · rw [hxj]; exact hkj
            · refine bLt_trans hkj ?_
              exact (List.pairwise_cons.mp (List.pairwise_cons.mp hsorPost).2).1 x hxr
        refine ⟨l, pre ++ (prevs.getD L 0) :: s.nodes.length :: post, hl, ?_, ?_,
          Or.inr ⟨hLh, ?_, ?_⟩⟩
        · refine nodeChain_insert_after (by rw [← hdec]; exact hl) ?_ ?_ ?_
            hppre hppost (by omega)
          · intro i hi hip
            have hin2 : i < s.nodes.length := by
              rcases hi with hi0 | himem
              · omega
              · refine (hbnd i ?_).2
                rw [hdec]
                exact himem
            rw [hnext' i L, if_neg (by omega), if_neg (by intro hc; exact hip hc.2),
              if_neg (by omega)]
          · rw [hnext' (prevs.getD L 0) L, if_neg (by have := hplt L; omega),
              if_pos ⟨hLh, rfl⟩]
          · rw [hnext' s.nodes.length L, if_pos ⟨hLh, rfl⟩]
        · have hkeqpre : ∀ x ∈ pre, keyOf s' x = keyOf s x := fun x hx =>
            hkeq x (hmempre x hx)
          have hkeqpost : ∀ x ∈ post, keyOf s' x = keyOf s x := fun x hx =>
            hkeq x (hmempost x hx)
          have hkeqp : keyOf s' (prevs.getD L 0) = keyOf s (prevs.getD L 0) := hkeq _ hpmem
          rw [List.pairwise_append]
          refine ⟨pairwise_transfer hkeqpre hsorPre, ?_, ?_⟩
          · rw [List.pairwise_cons]
            constructor
            · intro b hb
              rcases List.mem_cons.mp hb with hbn | hbpost
              · rw [hbn, hkeqp, hkn]
                exact hpk
              · rw [hkeqp, hkeq b (hmempost b hbpost)]
                exact (List.pairwise_cons.mp hsorPost).1 b hbpost
            · rw [List.pairwise_cons]
              refine ⟨?_, pairwise_transfer hkeqpost (List.pairwise_cons.mp hsorPost).2⟩
              intro b hb
              rw [hkn, hkeq b (hmempost b hb)]
              exact hgt b hb
          · intro a ha b hb
            have hap : bLt (keyOf s a) (keyOf s (prevs.getD L 0)) :=
              hrelPre a ha _ (List.mem_cons_self _ _)
            rcases List.mem_cons.mp hb with hbp | hb2
            · rw [hbp, hkeqpre a ha, hkeqp]
              exact hap
            · rcases List.mem_cons.mp hb2 with hbn | hbpost
              · rw [hbn, hkeqpre a ha, hkn]
                exact bLt_trans hap hpk
              · rw [hkeqpre a ha, hkeq b (hmempost b hbpost)]
                exact hrelPre a ha b (List.mem_cons_of_mem _ hbpost)
        · rw [hdec]
          have hasc : (pre ++ (prevs.getD L 0) :: post) ++ [s.nodes.length] =
              pre ++ ((prevs.getD L 0) :: (post ++ [s.nodes.length])) := by
            simp
          rw [hasc]
          refine List.Perm.append_left pre ?_
          refine List.Perm.cons _ ?_
          exact (List.perm_append_singleton _ _).symm
        · exact List.mem_append.mpr
            (Or.inr (List.mem_cons_of_mem _ (List.mem_cons_self _ _)))
  have hInv' : SLInv s' := by
    refine ⟨by omega, ?_, ?_, ?_, ?_, ?_, ?_, ?_, ?_, ?_, ?_⟩
    · intro i hi
      rw [hnodes', spliceAll_next_len]
      exact hns0len12 i (by rw [hns0len]; rw [hlen'] at hi; omega)
    · rw [hch']
      by_cases hc : s.current_height < calculate_random_height d
      · rw [if_pos hc]; omega
      · rw [if_neg hc]; omega
    · rw [hch']
      by_cases hc : s.current_height < calculate_random_height d
      · rw [if_pos hc]; omega
      · rw [if_neg hc]; omega
    · intro L
      obtain ⟨l, l', hl, hl', hs', hcase⟩ := hlev L
      exact ⟨l', hl'⟩
    · intro L l2 hl2
      obtain ⟨l, l', hl, hl', hsor', hcase⟩ := hlev L
      rw [nodeChain_unique hl2 hl']
      exact hsor'
    · intro L l2 hl2 i hi
      obtain ⟨l, l', hl, hl', hsor', hcase⟩ := hlev L
      rw [nodeChain_unique hl2 hl'] at hi
      rw [hlen']
      rcases hcase with ⟨hhL, heql⟩ | ⟨hhL, hperm, hmemn⟩
      · rw [heql] at hi
        have := hInv.bounds L l hl i hi
        omega
      · have hi2 := hperm.mem_iff.mp hi
        rcases List.mem_append.mp hi2 with hio | hin2
        · have := hInv.bounds L l hl i hio
          omega
        · have hieq : i = s.nodes.length := by simpa using hin2
          omega
    · intro l2 hl2 i h1 h2
      obtain ⟨l, l', hl, hl', hsor', hcase⟩ := hlev 0
      rw [nodeChain_unique hl2 hl']
      rw [hlen'] at h2
      rcases hcase with ⟨hh0, heql⟩ | ⟨hh0, hperm, hmemn⟩
      · omega
      · rw [hperm.mem_iff]
        by_cases hieq : i = s.nodes.length
        · subst hieq
          exact List.mem_append.mpr (Or.inr (List.mem_cons_self _ _))
        · exact List.mem_append.mpr (Or.inl (hInv.complete l hl i h1 (by omega)))
    · intro L la lb hla hlb i hi
      obtain ⟨l1, l1', hl1, hl1', hsor1, hcase1⟩ := hlev (L + 1)
      obtain ⟨l0, l0', hl0, hl0', hsor0, hcase0⟩ := hlev L
      rw [nodeChain_unique hla hl1'] at hi
      rw [nodeChain_unique hlb hl0']
      have hmem_old : ∀ x ∈ l1, x ∈ l0 := hInv.nested L l1 l0 hl1 hl0
      rcases hcase1 with ⟨hh1, he1⟩ | ⟨hh1, hperm1, hmem1⟩
      · rw [he1] at hi
        have hi0 := hmem_old i hi
        rcases hcase0 with ⟨hh0, he0⟩ | ⟨hh0, hperm0, hmem0⟩
        · rw [he0]; exact hi0
        · exact hperm0.mem_iff.mpr (List.mem_append.mpr (Or.inl hi0))
      · have hi2 := hperm1.mem_iff.mp hi
        rcases hcase0 with ⟨hh0, he0⟩ | ⟨hh0, hperm0, hmem0⟩
        · omega
        · rw [hperm0.mem_iff]
          rcases List.mem_append.mp hi2 with hio | hin2
          · exact List.mem_append.mpr (Or.inl (hmem_old i hio))
          · exact List.mem_append.mpr (Or.inr hin2)
    · intro i j h1 h2 h3 h4 heq
      rw [hlen'] at h2 h4
      rw [hkey' i, hkey' j] at heq
      by_cases hieq : i = s.nodes.length
      · by_cases hjeq : j = s.nodes.length
        · rw [hieq, hjeq]
        · rw [if_pos hieq, if_neg hjeq] at heq
          exact absurd heq.symm (hfresh j h3 (by omega))
      · by_cases hjeq : j = s.nodes.length
        · rw [if_neg hieq, if_pos hjeq] at heq
          exact absurd heq (hfresh i h1 (by omega))
        · rw [if_neg hieq, if_neg hjeq] at heq
          exact hInv.keys_inj i j h1 (by omega) h3 (by omega) heq
    · intro L hL
      rw [hch'] at hL
      have hLh : calculate_random_height d ≤ L ∧ s.current_height ≤ L := by
        by_cases hc : s.current_height < calculate_random_height d
        · rw [if_pos hc] at hL
          omega
        · rw [if_neg hc] at hL
          omega
      rw [hnext' 0 L, if_neg (by omega), if_neg (by omega), if_neg h0n]
      exact hInv.high_empty L hLh.2
  refine ⟨hInv', hlen', hkn, hvn, ?_, ?_, ?_, ?_, hch', ?_, ?_, ?_, ?_, ?_⟩
  · intro i hi
    rw [hkey' i, if_neg hi]
  · intro i hi
    rw [hval' i, if_neg hi]
  · exact hfresh
  · rw [hch']
    by_cases hc : s.current_height < calculate_random_height d
    · rw [if_pos hc]; omega
    · rw [if_neg hc]
  · rw [hnodes', spliceAll_next_len]
    exact hns0len12 s.nodes.length (by omega)
  · intro L hL
    rw [hnext' s.nodes.length L, if_neg (by omega),
      if_neg (by have := hplt L; omega), if_pos rfl]
  · intro L hL
    obtain ⟨l, l', hl, hl', hsor', hcase⟩ := hlev L
    rcases hcase with ⟨hh0, heql⟩ | ⟨hh0, hperm, hmemn⟩
    · omega
    · rw [chain_eq_of_nodeChain hInv' hl']
      exact hmemn
  · intro L hL
    obtain ⟨l, l', hl, hl', hsor', hcase⟩ := hlev L
    rcases hcase with ⟨hh0, heql⟩ | ⟨hh0, hperm, hmemn⟩
    · rw [chain_eq_of_nodeChain hInv' hl', chain_eq_of_nodeChain hInv hl, heql]
    · omega
  · obtain ⟨l, l', hl, hl', hsor', hcase⟩ := hlev 0
    rcases hcase with ⟨hh0, heql⟩ | ⟨hh0, hperm, hmemn⟩
    · omega
    · rw [chain_eq_of_nodeChain hInv' hl', chain_eq_of_nodeChain hInv hl]
      exact hperm

/-- States reachable by successful insertions from a fresh map, paired with
the sequence of successfully inserted key/value pairs. -/
inductive ReachableW : SkipList → List (List Nat × List Nat) → Prop
  | new : ReachableW SkipList.new []
  | step {s : SkipList} {kvs : List (List Nat × List Nat)} {k v : List Nat}
      {d : Nat → Nat} {s' : SkipList} :
      ReachableW s kvs → s.insert k v d = InsertResult.ok s' →
      ReachableW s' (kvs ++ [(k, v)])

/-- A state reachable by some sequence of successful insertions. -/
def Reachable (s : SkipList) : Prop := ∃ kvs, ReachableW s kvs

theorem reachableW_inv {s : SkipList} {kvs : List (List Nat × List Nat)}
    (h : ReachableW s kvs) : SLInv s := by
  induction h with
  | new => exact SLInv_new
  | step hr hok ih => exact (insert_ok_spec ih hok).inv'

theorem reachable_inv {s : SkipList} (h : Reachable s) : SLInv s := by
  obtain ⟨kvs, hw⟩ := h
  exact reachableW_inv hw

/-- C2: round-trip — on any reachable state, a successful `insert (k, v)`
makes `get k` return `v` and `contain k` return `true`, and these continue to
hold after any further sequence of read-only operations. -/
theorem insert_get_roundtrip :
    ∀ (s : SkipList) (k v : List Nat) (d : Nat → Nat) (s' : SkipList),
    Reachable s → s.insert k v d = InsertResult.ok s' →
    s'.get k = Except.ok (some v) ∧ s'.contain k = Except.ok true ∧
    ∀ ops : List Op, (∀ op ∈ ops, op.isRead = true) →
      (runOps s' ops).get k = Except.ok (some v) ∧
      (runOps s' ops).contain k = Except.ok true := by
  intro s k v d s' hr hok
  have hInv := reachable_inv hr
  have hspec := insert_ok_spec hInv hok
  have hget : s'.get k = Except.ok (some v) := by
    have hp := get_present hspec.inv' (by have := hInv.nodes_pos; omega)
      (by rw [hspec.len]; omega) hspec.newkey
    rw [hp, hspec.newval]
  have hcont : s'.contain k = Except.ok true := by
    unfold SkipList.contain
    rw [hget]
    rfl
  have hstate : ∀ ops : List Op, (∀ op ∈ ops, op.isRead = true) → runOps s' ops = s' := by
    intro ops
    induction ops with
    | nil => intro _; rfl
    | cons op rest ih =>
      intro hall
      have hop : (runOp s' op).2 = s' := by
        cases op with
        | get k2 => rfl
        | contain k2 => rfl
        | insert k2 v2 d2 =>
          exact absurd (hall _ (List.mem_cons_self _ _)) (by simp [Op.isRead])
      show runOps (runOp s' op).2 rest = s'
      rw [hop]
      exact ih (fun o ho => hall o (List.mem_cons_of_mem _ ho))
  refine ⟨hget, hcont, ?_⟩
  intro ops hall
  rw [hstate ops hall]
  exact ⟨hget, hcont⟩

/-- Witness for the round-trip theorem at a concrete input. -/
theorem insert_get_roundtrip_witness :
    Reachable SkipList.new ∧
    (runOp SkipList.new (Op.insert [5] [7] (fun _ => 1))).2.get [5]
      = Except.ok (some [7]) := by
  have hr : Reachable SkipList.new := ⟨[], ReachableW.new⟩
  have hok : SkipList.new.insert [5] [7] (fun _ => 1) =
      InsertResult.ok (runOp SkipList.new (Op.insert [5] [7] (fun _ => 1))).2 := rfl
  exact ⟨hr, (insert_get_roundtrip SkipList.new [5] [7] (fun _ => 1) _ hr hok).1⟩

theorem base_chain_pairs_perm {s : SkipList} {kvs : List (List Nat × List Nat)}
    (h : ReachableW s kvs) :
    ((chain s 0).map (fun i => (keyOf s i, valueOf s i))).Perm kvs := by
  induction h with
  | new =>
    have hc : chain SkipList.new 0 = [] := by
      unfold chain
      rw [nextOf_new]
      rfl
    rw [hc]
    rfl
  | step hr hok ih =>
    rename_i s kvs k v d s'
    have hInv := reachableW_inv hr
    have hspec := insert_ok_spec hInv hok
    obtain ⟨l₀, hl₀⟩ := hInv.chains 0
    have hbnd := hInv.bounds 0 l₀ hl₀
    have hchain : chain s 0 = l₀ := chain_eq_of_nodeChain hInv hl₀
    have hmap : (chain s 0).map (fun i => (keyOf s' i, valueOf s' i)) =
        (chain s 0).map (fun i => (keyOf s i, valueOf s i)) := by
      refine List.map_congr_left ?_
      intro x hx
      rw [hchain] at hx
      have hxb := hbnd x hx
      rw [hspec.oldkey x (by omega), hspec.oldval x (by omega)]
    refine List.Perm.trans (hspec.base_perm.map _) ?_
    rw [List.map_append, hmap]
    have hone : List.map (fun i => (keyOf s' i, valueOf s' i)) [s.nodes.length] = [(k, v)] := by
      simp [hspec.newkey, hspec.newval]
    rw [hone]
    exact ih.append_right _

/-- C3: after any sequence of successful insertions, the base-level chain
visits exactly the inserted entries, each once, with strictly ascending keys
(as a permutation of the inserted pairs plus strict sortedness), and every
level's chain is a strictly ascending subsequence of the base chain. -/
theorem base_chain_exact :
    ∀ (s : SkipList) (kvs : List (List Nat × List Nat)), ReachableW s kvs →
    ((chain s 0).map (fun i => (keyOf s i, valueOf s i))).Perm kvs ∧
    (∀ L, ((chain s L).map (keyOf s)).Pairwise bLt) ∧
    (∀ L, (chain s L).Sublist (chain s 0)) := by
  intro s kvs hw
  have hInv := reachableW_inv hw
  have hsorted : ∀ L, ((chain s L).map (keyOf s)).Pairwise bLt := by
    intro L
    obtain ⟨l, hl⟩ := hInv.chains L
    rw [chain_eq_of_nodeChain hInv hl, List.pairwise_map]
    exact hInv.sorted L l hl
  have hstep : ∀ L, (chain s (L + 1)).Sublist (chain s L) := by
    intro L
    obtain ⟨l1, hl1⟩ := hInv.chains (L + 1)
    obtain ⟨l0, hl0⟩ := hInv.chains L
    rw [chain_eq_of_nodeChain hInv hl1, chain_eq_of_nodeChain hInv hl0]
    refine sorted_subset_sublist (fun a b h1 h2 => bLt_asymm h1 h2) l0 l1
      (hInv.sorted (L + 1) l1 hl1) (hInv.sorted L l0 hl0) ?_
    exact hInv.nested L l1 l0 hl1 hl0
  refine ⟨base_chain_pairs_perm hw, hsorted, ?_⟩
  intro L
  induction L with
  | zero => exact List.Sublist.refl _
  | succ m ih => exact (hstep m).trans ih

/-- Witness for the ordering-invariant theorem at a concrete two-insert
state. -/
theorem base_chain_exact_witness :
    ∃ s2 : SkipList, ReachableW s2 [([9], [1]), ([3], [2])] ∧
    ((chain s2 0).map (fun i => (keyOf s2 i, valueOf s2 i))).Perm
      [([9], [1]), ([3], [2])] := by
  have h1 : SkipList.new.insert [9] [1] (fun _ => 1) =
      InsertResult.ok (runOp SkipList.new (Op.insert [9] [1] (fun _ => 1))).2 := rfl
  have h2 : (runOp SkipList.new (Op.insert [9] [1] (fun _ => 1))).2.insert [3] [2]
      (fun _ => 1) = InsertResult.ok
        (runOp (runOp SkipList.new (Op.insert [9] [1] (fun _ => 1))).2
          (Op.insert [3] [2] (fun _ => 1))).2 := rfl
  have hw : ReachableW
      (runOp (runOp SkipList.new (Op.insert [9] [1] (fun _ => 1))).2
        (Op.insert [3] [2] (fun _ => 1))).2 ([] ++ [([9], [1])] ++ [([3], [2])]) :=
    ReachableW.step (ReachableW.step ReachableW.new h1) h2
  exact ⟨_, hw, (base_chain_exact _ _ hw).1⟩

/-- C4: descent contract — on every state satisfying the structural
invariant, `find_greater_or_eq` returns the first base-chain node whose key
is at or above the target (hence the exact match whenever the key is
present, and `none` when no such node exists), together with, at every
in-use level, the last node of that level's chain with key strictly below
the target (the head sentinel when there is none); predecessor slots above
`current_height` hold the head sentinel. -/
theorem find_descent_contract :
    ∀ (s : SkipList), SLInv s → ∀ key : List Nat,
    ∃ found prevs,
      s.find_greater_or_eq key = Except.ok (found, prevs) ∧
      found = firstGE s key ∧
      (∀ i, 1 ≤ i → i < s.nodes.length → keyOf s i = key → found = some i) ∧
      (∀ L, L < s.current_height → prevs.getD L 0 = lastLt s key (chain s L)) ∧
      (∀ L, s.current_height ≤ L → prevs.getD L 0 = 0) := by
  intro s hInv key
  obtain ⟨found, prevs, heq, hlen, hhigh, hlow, hfound⟩ := find_greater_or_eq_spec hInv key
  obtain ⟨l₀, hl₀⟩ := hInv.chains 0
  refine ⟨found, prevs, heq, ?_, ?_, ?_, hhigh⟩
  · rw [hfound, predSpec_found_eq hInv hl₀ (hlow 0 hInv.ch_lb)]
    unfold firstGE
    rw [chain_eq_of_nodeChain hInv hl₀]
  · intro i h1 h2 hk
    rw [hfound, predSpec_found_eq hInv hl₀ (hlow 0 hInv.ch_lb)]
    exact firstGE_of_present hInv hl₀ h1 h2 hk
  · intro L hL
    obtain ⟨l, hl⟩ := hInv.chains L
    rw [chain_eq_of_nodeChain hInv hl]
    exact (predSpec_eq_lastLt hInv hl (hlow L hL)).symm ▸ rfl

/-- Witness for the descent contract at a concrete state and key. -/
theorem find_descent_contract_witness :
    SLInv SkipList.new ∧
    ∃ found prevs,
      SkipList.new.find_greater_or_eq [3] = Except.ok (found, prevs) ∧
      found = firstGE SkipList.new [3] ∧
      (∀ i, 1 ≤ i → i < SkipList.new.nodes.length → keyOf SkipList.new i = [3] →
        found = some i) ∧
      (∀ L, L < SkipList.new.current_height →
        prevs.getD L 0 = lastLt SkipList.new [3] (chain SkipList.new L)) ∧
      (∀ L, SkipList.new.current_height ≤ L → prevs.getD L 0 = 0) :=
  ⟨SLInv_new, find_descent_contract SkipList.new SLInv_new [3]⟩

/-- C5: every sampled tower height lies in [1, MAX_HEIGHT]; on every
reachable state `current_height` lies in [1, MAX_HEIGHT]; and no operation
ever decreases `current_height`. -/
theorem height_bounds :
    (∀ d : Nat → Nat, 1 ≤ calculate_random_height d ∧
      calculate_random_height d ≤ MAX_HEIGHT) ∧
    (∀ s : SkipList, Reachable s →
      1 ≤ s.current_height ∧ s.current_height ≤ MAX_HEIGHT) ∧
    (∀ (s : SkipList) (op : Op), Reachable s →
      s.current_height ≤ (runOp s op).2.current_height) := by
  refine ⟨calculate_random_height_bounds, ?_, ?_⟩
  · intro s hr
    have hInv := reachable_inv hr
    exact ⟨hInv.ch_lb, hInv.ch_ub⟩
  · intro s op hr
    cases op with
    | get k => exact le_refl _
    | contain k => exact le_refl _
    | insert k v d =>
      cases hok : s.insert k v d with
      | ok s2 =>
        have hrw : (runOp s (Op.insert k v d)).2 = s2 := by simp [runOp, hok]
        rw [hrw]
        exact (insert_ok_spec (reachable_inv hr) hok).ch_mono
      | panicked m =>
        have hrw : (runOp s (Op.insert k v d)).2 = s := by simp [runOp, hok]
        rw [hrw]
      | stuck e =>
        have hrw : (runOp s (Op.insert k v d)).2 = s := by simp [runOp, hok]
        rw [hrw]

/-- Witness for the height-bound theorem at concrete inputs. -/
theorem height_bounds_witness :
    Reachable SkipList.new ∧
    (1 ≤ calculate_random_height (fun _ => 0) ∧
      calculate_random_height (fun _ => 0) ≤ MAX_HEIGHT) ∧
    (1 ≤ SkipList.new.current_height ∧ SkipList.new.current_height ≤ MAX_HEIGHT) ∧
    SkipList.new.current_height ≤
      (runOp SkipList.new (Op.insert [1] [2] (fun _ => 0))).2.current_height := by
  have hr : Reachable SkipList.new := ⟨[], ReachableW.new⟩
  exact ⟨hr, height_bounds.1 (fun _ => 0), height_bounds.2.1 SkipList.new hr,
    height_bounds.2.2 SkipList.new (Op.insert [1] [2] (fun _ => 0)) hr⟩

/-- C8 counterexample: a concrete insertion whose sampled tower height is 1
still allocates a node with MAX_HEIGHT = 12 forward-reference slots, not 1. -/
theorem node_slot_count_counterexample :
    calculate_random_height (fun _ => 1) = 1 ∧
    ((runOp SkipList.new (Op.insert [7] [8] (fun _ => 1))).2.nodes.getD 1
      default).next.length = MAX_HEIGHT ∧
    MAX_HEIGHT ≠ 1 :=
  ⟨rfl, rfl, by decide⟩

/-- C8 (amended): the newly allocated node always carries MAX_HEIGHT
forward-reference slots (as `SkipListNode::new` allocates
`vec![None; MAX_HEIGHT]`); only the slots below the sampled height `h` are
spliced into chains — the node sits on every chain below `h`, while its
slots at levels ≥ h stay empty. -/
theorem node_slot_count :
    ∀ (s : SkipList) (k v : List Nat) (d : Nat → Nat) (s' : SkipList),
    Reachable s → s.insert k v d = InsertResult.ok s' →
    (SkipListNode.new k v).next.length = MAX_HEIGHT ∧
    (nodeAt s'.nodes s.nodes.length).next.length = MAX_HEIGHT ∧
    (∀ L, calculate_random_height d ≤ L → nextOf s' s.nodes.length L = none) ∧
    (∀ L, L < calculate_random_height d → s.nodes.length ∈ chain s' L) := by
  intro s k v d s' hr hok
  have hspec := insert_ok_spec (reachable_inv hr) hok
  exact ⟨by simp [SkipListNode.new], hspec.newlen, hspec.newhigh, hspec.mem_chain⟩

/-- Witness for the amended slot-count theorem at a concrete input. -/
theorem node_slot_count_witness :
    Reachable SkipList.new ∧
    (SkipListNode.new [7] [8]).next.length = MAX_HEIGHT ∧
    (nodeAt (runOp SkipList.new (Op.insert [7] [8] (fun _ => 1))).2.nodes
      SkipList.new.nodes.length).next.length = MAX_HEIGHT := by
  have hr : Reachable SkipList.new := ⟨[], ReachableW.new⟩
  have hok : SkipList.new.insert [7] [8] (fun _ => 1) =
      InsertResult.ok (runOp SkipList.new (Op.insert [7] [8] (fun _ => 1))).2 := rfl
  have hth := node_slot_count SkipList.new [7] [8] (fun _ => 1) _ hr hok
  exact ⟨hr, hth.1, hth.2.1⟩

/-- C9: on every invariant-satisfying state all operations terminate
normally (the fueled descent loop never exhausts its fuel, so
`find_greater_or_eq`, `get` and `contain` always return, and `insert`
either returns or hits the duplicate-key panic), and the height-sampling
loop converges within MAX_HEIGHT iterations (any fuel of at least
MAX_HEIGHT produces the same result). -/
theorem operations_terminate :
    ∀ (s : SkipList), SLInv s →
    (∀ key, ∃ r, s.find_greater_or_eq key = Except.ok r) ∧
    (∀ key, ∃ r, s.get key = Except.ok r) ∧
    (∀ key, ∃ r, s.contain key = Except.ok r) ∧
    (∀ (k v : List Nat) (d : Nat → Nat), (∃ s', s.insert k v d = InsertResult.ok s') ∨
      s.insert k v d = InsertResult.panicked "Same keys are not allowed here") ∧
    (∀ (draws : Nat → Nat) (fuel : Nat), MAX_HEIGHT ≤ fuel →
      crhGo draws fuel 0 1 = calculate_random_height draws) := by
  intro s hInv
  have hfind : ∀ key, ∃ r, s.find_greater_or_eq key = Except.ok r := by
    intro key
    obtain ⟨found, prevs, heq, -⟩ := find_greater_or_eq_spec hInv key
    exact ⟨(found, prevs), heq⟩
  have hget : ∀ key, ∃ r, s.get key = Except.ok r := by
    intro key
    obtain ⟨⟨found, prevs⟩, heq⟩ := hfind key
    unfold SkipList.get
    rw [heq]
    dsimp only
    cases found with
    | none => exact ⟨none, rfl⟩
    | some j =>
      by_cases hc : bytesCmp key (keyOf s j) = Ordering.eq
      · exact ⟨some (valueOf s j), by dsimp only; rw [if_pos hc]⟩
      · exact ⟨none, by dsimp only; rw [if_neg hc]⟩
  refine ⟨hfind, hget, ?_, ?_, ?_⟩
  · intro key
    obtain ⟨r, heq⟩ := hget key
    refine ⟨r.isSome, ?_⟩
    unfold SkipList.contain
    rw [heq]
    rfl
  · intro k v d
    obtain ⟨⟨found, prevs⟩, heq⟩ := hfind k
    unfold SkipList.insert
    rw [heq]
    dsimp only
    by_cases hdup : dupCheck s k found = true
    · right
      rw [if_pos hdup]
    · left
      exact ⟨_, by rw [if_neg hdup]⟩
  · intro draws fuel hf
    exact crhGo_fuel draws fuel MAX_HEIGHT 0 1 (by omega) (by omega)

/-- Witness for the termination theorem at a concrete state and inputs. -/
theorem operations_terminate_witness :
    SLInv SkipList.new ∧
    (∃ r, SkipList.new.find_greater_or_eq [2] = Except.ok r) ∧
    (∃ r, SkipList.new.get [2] = Except.ok r) ∧
    (∃ r, SkipList.new.contain [2] = Except.ok r) ∧
    ((∃ s', SkipList.new.insert [2] [3] (fun _ => 1) = InsertResult.ok s') ∨
      SkipList.new.insert [2] [3] (fun _ => 1) =
        InsertResult.panicked "Same keys are not allowed here") ∧
    crhGo (fun _ => 1) 20 0 1 = calculate_random_height (fun _ => 1) := by
  have hth := operations_terminate SkipList.new SLInv_new
  exact ⟨SLInv_new, hth.1 [2], hth.2.1 [2], hth.2.2.1 [2], hth.2.2.2.1 [2] [3] (fun _ => 1),
    hth.2.2.2.2 (fun _ => 1) 20 (by norm_num [MAX_HEIGHT])⟩
